import Mathlib

/-!
# Verification of the cadbook gear-cutter core

Shallow embedding of the path primitive, arc math utilities, rack profile
generator, transform compositor, half-plane clipping pen, min-priority queue
and gear assembly of the cadbook repository, together with proofs and
refutations of the specification claims about them.

Conventions:
* TypeScript `number` is idealized as `ℝ` where the code computes with
  transcendental functions, and as `ℚ` where the code is pure (rational)
  arithmetic, so that the latter definitions evaluate by `decide`.
* Fallible code (a TypeScript `throw`) is `Option`/`Except`.
-/

namespace Cadbook

/-! ## Arc math utilities (src/src/gearcutter/utils/arcUtils.ts) -/

/-- `versine` from `arcUtils.ts`: computes `1 - cos theta` as
`2 * sin (theta/2) ^ 2` (numerically stable form used by the source). -/
noncomputable def versine (theta : ℝ) : ℝ :=
  2.0 * Real.sin (theta * 0.5) * Real.sin (theta * 0.5)

/-- `radiusFromDistance` from `arcUtils.ts`:
circle radius from chord length and turn angle. -/
noncomputable def radiusFromDistance (distance turn : ℝ) : ℝ :=
  (distance * 0.5) / Real.sin (turn * 0.5)

/-- `pointFromForwardAndCrossFactors` from `arcUtils.ts`: the point reached
from `(x1,y1)` by moving `ffac` chord lengths along the chord to `(x2,y2)`
and `cfac` chord lengths perpendicular to it. -/
noncomputable def pointFromForwardAndCrossFactors (x1 y1 x2 y2 ffac cfac : ℝ) :
    ℝ × ℝ :=
  let dx := x2 - x1
  let dy := y2 - y1
  (x1 + dx * ffac - dy * cfac, y1 + dy * ffac + dx * cfac)

/-- `interpolateArcTurn` from `arcUtils.ts`: per its documentation, the point
that breaks the arc from `(x1,y1)` to `(x2,y2)` (total turn `turn`) at
cumulative turn `target_turn`, computed via a unit-circle parametrization. -/
noncomputable def interpolateArcTurn (x1 y1 x2 y2 turn target_turn : ℝ) :
    ℝ × ℝ :=
  let halfturn := turn * 0.5
  let endy := Real.sin halfturn
  let endx := -versine halfturn
  let midy := Real.sin (target_turn - halfturn)
  let midx := -versine (target_turn - halfturn)
  let scale := 0.5 / endy
  let ffac := midy * scale
  let cfac := (midx - endx) * scale
  pointFromForwardAndCrossFactors x1 y1 x2 y2 ffac cfac

theorem sin_pi_mul_half : Real.sin (Real.pi * 0.5) = 1 := by
  have h : Real.pi * 0.5 = Real.pi / 2 := by ring
  rw [h, Real.sin_pi_div_two]

theorem versine_pi_mul_half : versine (Real.pi * 0.5) = 1 := by
  unfold versine
  have h : Real.pi * 0.5 * 0.5 = Real.pi / 4 := by ring
  rw [h, Real.sin_pi_div_four]
  have h2 : Real.sqrt 2 * Real.sqrt 2 = 2 := Real.mul_self_sqrt (by norm_num)
  have h3 : (2.0 : ℝ) * (Real.sqrt 2 / 2) * (Real.sqrt 2 / 2) =
      Real.sqrt 2 * Real.sqrt 2 / 2 := by ring
  rw [h3, h2]
  norm_num

/-- Claim C1 (code bug). The spec demands
`interpolateArcTurn(p1, p2, turn, 0) = p1` and
`interpolateArcTurn(p1, p2, turn, turn) = p2` for nonzero `turn` in
`(-2π, 2π)`, and the function's own doc comment promises the point on the
arc at the given cumulative turn.  The code violates this: for
`p1 = (0,0)`, `p2 = (2,0)`, `turn = π` it returns `(-1, 0)` at
`target_turn = 0` (instead of `p1 = (0,0)`) and `(1, 0)` at
`target_turn = π` (instead of `p2 = (2,0)`): the forward factor omits the
`+0.5` chord offset and the cross factor has the wrong sign. -/
theorem interpolateArcTurn_endpoint_bug :
    interpolateArcTurn 0 0 2 0 Real.pi 0 = (-1, 0) ∧
    interpolateArcTurn 0 0 2 0 Real.pi Real.pi = (1, 0) ∧
    ((-1 : ℝ), (0 : ℝ)) ≠ ((0 : ℝ), (0 : ℝ)) ∧
    ((1 : ℝ), (0 : ℝ)) ≠ ((2 : ℝ), (0 : ℝ)) := by
  refine ⟨?_, ?_, by simp, by simp⟩
  · unfold interpolateArcTurn pointFromForwardAndCrossFactors
    have h0 : (0 : ℝ) - Real.pi * 0.5 = -(Real.pi * 0.5) := by ring
    have hvn : versine (-(Real.pi * 0.5)) = versine (Real.pi * 0.5) := by
      unfold versine
      have : -(Real.pi * 0.5) * 0.5 = -(Real.pi * 0.5 * 0.5) := by ring
      rw [this, Real.sin_neg]
      ring
    simp only [h0, Real.sin_neg, sin_pi_mul_half, hvn, versine_pi_mul_half]
    norm_num
  · unfold interpolateArcTurn pointFromForwardAndCrossFactors
    have h0 : Real.pi - Real.pi * 0.5 = Real.pi * 0.5 := by ring
    simp only [h0, sin_pi_mul_half, versine_pi_mul_half]
    norm_num

/-! ## The path primitive vocabulary (src/src/gearcutter/types.ts) -/

/-- A pen operation: `Move(x,y)` or `ArcTo(x,y,turn)`.  Parametrized by the
number type so that purely rational components can be run with `ℚ` (and
evaluated by `decide`) while trigonometric components use `ℝ`. -/
inductive PenOp (α : Type) where
  | move (x y : α)
  | arc (x y turn : α)
deriving DecidableEq, Repr

/-- The target point of a pen operation. -/
def PenOp.pt {α : Type} : PenOp α → α × α
  | .move x y => (x, y)
  | .arc x y _ => (x, y)

/-- The x coordinate of a pen operation's target point. -/
def PenOp.px {α : Type} : PenOp α → α
  | .move x _ => x
  | .arc x _ _ => x

/-- The y coordinate of a pen operation's target point. -/
def PenOp.py {α : Type} : PenOp α → α
  | .move _ y => y
  | .arc _ y _ => y

/-- The turn of an `arc` operation (`0` for a `move`). -/
def PenOp.turn {α : Type} [Zero α] : PenOp α → α
  | .move _ _ => 0
  | .arc _ _ t => t

/-- Whether the operation is a `move`. -/
def PenOp.isMove {α : Type} : PenOp α → Bool
  | .move _ _ => true
  | .arc _ _ _ => false

/-! ## Rack profile generator (src/src/gearcutter/rack.ts) -/

/-- `RackProps` from `rack.ts`. -/
structure RackProps where
  contactRatio : ℝ
  pressureAngle : ℝ
  profileShift : ℝ
  balancePercent : ℝ
  balanceAbsPercent : ℝ
  topClrPercent : ℝ
  botClrPercent : ℝ

/-- `makeRack` from `rack.ts`: the operations the returned path closure sends
to a pen, for a given `doMove` flag. -/
noncomputable def makeRack (props : RackProps) (doMove : Bool) :
    List (PenOp ℝ) :=
  let sinPA := Real.sin (props.pressureAngle * Real.pi / 180.0)
  let cosPA := Real.cos (props.pressureAngle * Real.pi / 180.0)
  let tanPA := sinPA / cosPA
  let ah := props.contactRatio * sinPA * cosPA
  let cy := props.profileShift / (100 * Real.pi)
  let bkw := props.balanceAbsPercent / (200 * Real.pi)
  let freew := 0.5 - ah * tanPA
  let cx := -0.25 - (freew * (props.balancePercent - 50)) / 100
  let maxy := cy + ah / 2 + props.topClrPercent / (100 * Real.pi)
  let miny := cy - ah / 2 - props.botClrPercent / (100 * Real.pi)
  let topx := (maxy - cy) * tanPA + cx
  let botx := (miny - cy) * tanPA + cx
  (if doMove then [PenOp.move (-1.0 - botx + bkw) miny] else []) ++
    [PenOp.arc (botx - bkw) miny 0,
     PenOp.arc (topx - bkw) maxy 0,
     PenOp.arc (-topx + bkw) maxy 0,
     PenOp.arc (-botx + bkw) miny 0]

/-- Claim C3 (amended).  For every `RackProps`, `makeRack` produces a
four-segment rack-tooth outline whose four drawing operations are all
straight (`turn = 0`), and whose start and end point are one circular pitch
apart in `x` at the same `y` — where one circular pitch is `1` in the
internal units (module `1/π`), not `2π` as the claim said. -/
theorem makeRack_four_straight_ops_one_pitch (props : RackProps) :
    (makeRack props true).length = 5 ∧
    ((makeRack props true).getD 0 (PenOp.arc 0 0 1)).isMove = true ∧
    (∀ op ∈ (makeRack props true).tail, op.isMove = false ∧ op.turn = 0) ∧
    ((makeRack props true).getD 4 (PenOp.arc 0 0 1)).px =
      ((makeRack props true).getD 0 (PenOp.arc 0 0 1)).px + 1 ∧
    ((makeRack props true).getD 4 (PenOp.arc 0 0 1)).py =
      ((makeRack props true).getD 0 (PenOp.arc 0 0 1)).py := by
  unfold makeRack
  simp only [if_pos, List.cons_append, List.nil_append]
  refine ⟨rfl, rfl, ?_, ?_, rfl⟩
  · intro op hop
    simp only [List.tail_cons, List.mem_cons, List.not_mem_nil, or_false]
      at hop
    rcases hop with h | h | h | h <;> subst h <;> exact ⟨rfl, rfl⟩
  · simp only [List.getD_cons_zero, List.getD_cons_succ, PenOp.px]
    ring

/-- Concrete rack parameters: the pinion rack built by `createGearPair` for
the all-defaults configuration. -/
noncomputable def rackPropsDefault : RackProps :=
  { contactRatio := 1.5, pressureAngle := 20, profileShift := 0,
    balancePercent := 50, balanceAbsPercent := 0, topClrPercent := 0,
    botClrPercent := 15 }

/-- Claim C3 counterexample.  The claim says the outline's start and end points
are `2π` apart in `x`; on the concrete default rack they are exactly `1`
apart, and `1 ≠ 2π`. -/
theorem makeRack_pitch_not_two_pi :
    ((makeRack rackPropsDefault true).getD 4 (PenOp.move 0 0)).px -
      ((makeRack rackPropsDefault true).getD 0 (PenOp.move 0 0)).px = 1 ∧
    (1 : ℝ) ≠ 2 * Real.pi := by
  constructor
  · unfold makeRack
    simp only [if_pos, List.cons_append, List.nil_append,
      List.getD_cons_zero, List.getD_cons_succ, PenOp.px]
    ring
  · intro h
    have := Real.pi_gt_three
    nlinarith

/-! ## Gear assembly (src/src/gearcutter/index.ts)

`createGearPair` is embedded up to (and including) the construction of the
two racks and the pitch diameters.  The tooth-cutter stage
(`ToothCutter.ts`, not needed by any claim about diameters or validation)
is beyond this prefix; everything the claims C2 and C7 talk about —
parameter validation order, rack construction, pitch diameters — is in the
source shown in `index.ts` and is embedded faithfully below. -/

/-- `GearPairSizeType` from `index.ts`. -/
inductive GearPairSizeType where
  | mod
  | diaPitch
  | centerDist
deriving DecidableEq, Repr

/-- `GearPairProps` from `index.ts`; optional fields are `Option`s, with the
defaults of the source applied inside the model. -/
structure GearPairProps where
  clearanceModPercent : Option ℝ := none
  backlashModPercent : Option ℝ := none
  balancePercent : Option ℝ := none
  pressureAngle : Option ℝ := none
  targetContactRatio : Option ℝ := none
  profileShiftPercent : Option ℝ := none
  gearTeeth : ℝ
  pinionTeeth : ℝ
  isInternalGear : Option Bool := none
  isMaxFillet : Option Bool := none
  faceToleranceModPercent : Option ℝ := none
  filletToleranceModPercent : Option ℝ := none
  sizeType : GearPairSizeType
  size : ℝ

/-- The data produced by the prefix of `createGearPair` that precedes the
tooth-cutter stage: the two racks (as path closures) and the two pitch
diameters.  A validation failure produces no such record at all. -/
structure GearPairPartial where
  pinionRack : Bool → List (PenOp ℝ)
  gearRack : Bool → List (PenOp ℝ)
  gearPitchDiameter : ℝ
  pinionPitchDiameter : ℝ

open scoped Classical in
/-- The validation / rack / pitch-diameter prefix of `createGearPair` from
`index.ts`, with the source's defaulting (`??`), validation order, sizing
conversion and rack parameter wiring.  (`isFinite(size)` always holds for a
real number, so the size check reduces to `size ≤ 0`.) -/
noncomputable def createGearPairModel (props : GearPairProps) :
    Except String GearPairPartial :=
  let clearancePercent := props.clearanceModPercent.getD 15
  let backlashPercent := props.backlashModPercent.getD 0
  let pressureAngle := props.pressureAngle.getD 20
  let contactRatio := props.targetContactRatio.getD 1.5
  let profileShift := props.profileShiftPercent.getD 0
  let gearTeeth := props.gearTeeth
  let pinionTeeth := props.pinionTeeth
  let isInternal := props.isInternalGear.getD false
  let balancePercent := props.balancePercent.getD 50
  let sizeNumber := props.size
  if gearTeeth < 4 then
    Except.error "Cannot have less than 4 gear teeth"
  else if isInternal = true ∧ gearTeeth ≤ pinionTeeth then
    Except.error "Pinion must have fewer teeth than internal gear"
  else
    let gearRadius := gearTeeth * 0.5 / Real.pi
    let pinionRadius := pinionTeeth * 0.5 / Real.pi
    let szLen : ℝ :=
      match props.sizeType with
      | .diaPitch => 1.0
      | .centerDist =>
          gearRadius + (if isInternal = true then -pinionRadius
                        else pinionRadius)
      | .mod => 1.0 / Real.pi
    if sizeNumber ≤ 0 then
      Except.error "Invalid size number"
    else
      let scale := sizeNumber / szLen
      let rackProps : RackProps :=
        { contactRatio := contactRatio, pressureAngle := pressureAngle,
          profileShift := profileShift, balancePercent := balancePercent,
          balanceAbsPercent := 0.0, topClrPercent := 0, botClrPercent := 0 }
      Except.ok
        { pinionRack :=
            makeRack { rackProps with
                       botClrPercent := clearancePercent,
                       balanceAbsPercent := backlashPercent * (-0.5) }
          gearRack :=
            makeRack { rackProps with
                       balancePercent :=
                         if isInternal = true then rackProps.balancePercent
                         else 100 - rackProps.balancePercent,
                       profileShift :=
                         if isInternal = true then profileShift
                         else -profileShift,
                       botClrPercent :=
                         if isInternal = true then 0 else clearancePercent,
                       topClrPercent :=
                         if isInternal = true then clearancePercent else 0,
                       balanceAbsPercent :=
                         backlashPercent *
                           (if isInternal = true then 0.5 else -0.5) }
          gearPitchDiameter := gearRadius * 2.0 * scale
          pinionPitchDiameter := pinionRadius * 2.0 * scale }

/-- The concrete configuration of claim C2. -/
noncomputable def gearPairProps40 : GearPairProps :=
  { gearTeeth := 40, pinionTeeth := 12, sizeType := GearPairSizeType.mod,
    size := 2, pressureAngle := some 20 }

/-- The pitch diameters of a gear pair model result, if it succeeded. -/
noncomputable def modelDiameters (r : Except String GearPairPartial) :
    Except String (ℝ × ℝ) :=
  r.map fun p => (p.gearPitchDiameter, p.pinionPitchDiameter)

theorem createGearPairModel_props40 :
    modelDiameters (createGearPairModel gearPairProps40) =
      Except.ok (80, 24) := by
  unfold createGearPairModel gearPairProps40 modelDiameters
  have hpi := Real.pi_pos
  rw [if_neg (by norm_num), if_neg (by norm_num), if_neg (by norm_num)]
  simp only [Except.map]
  have h1 : (40 : ℝ) * 0.5 / Real.pi * 2.0 * (2 / (1.0 / Real.pi)) = 80 := by
    field_simp
    ring
  have h2 : (12 : ℝ) * 0.5 / Real.pi * 2.0 * (2 / (1.0 / Real.pi)) = 24 := by
    field_simp
    ring
  rw [Except.ok.injEq, Prod.mk.injEq]
  exact ⟨h1, h2⟩

/-- Claim C2 counterexample.  For the module-2 configuration the code returns
pitch diameters `(80, 24)`, but the claim's formulas `2·40·0.5/π·2` and
`2·12·0.5/π·2` evaluate to `80/π` and `24/π`, which differ (the claim's
expression is missing the `π` of the internal-module-to-size conversion). -/
theorem createGearPair_diameters_counterexample :
    modelDiameters (createGearPairModel gearPairProps40) =
      Except.ok (80, 24) ∧
    (80 : ℝ) ≠ 2 * 40 * 0.5 / Real.pi * 2 ∧
    (24 : ℝ) ≠ 2 * 12 * 0.5 / Real.pi * 2 := by
  refine ⟨createGearPairModel_props40, ?_, ?_⟩ <;>
  · intro h
    have h3 := Real.pi_gt_three
    have hpi := Real.pi_pos
    rw [div_mul_eq_mul_div, eq_div_iff (by positivity)] at h
    nlinarith

/-- Claim C2 (amended).  For the module-2, 40/12-teeth configuration the pitch
diameters are module × teeth (the module convention): `2·40 = 80` for the
gear and `2·12 = 24` for the pinion, i.e. `2·(teeth·0.5/π)·(2π)`. -/
theorem createGearPair_diameters_module_convention :
    modelDiameters (createGearPairModel gearPairProps40) =
      Except.ok (2 * 40, 2 * 12) := by
  have h := createGearPairModel_props40
  norm_num at h ⊢
  exact h

/-- Claim C7.  For every `GearPairProps` with `gearTeeth < 4`,
`createGearPair` fails with the too-few-teeth configuration error.  In the
model (as in the source) this check precedes the sizing conversion, the
rack construction and the tooth-cutter stage, and an `Except.error` result
carries no racks and no partial output. -/
theorem createGearPair_rejects_too_few_teeth (props : GearPairProps)
    (h : props.gearTeeth < 4) :
    createGearPairModel props =
      Except.error "Cannot have less than 4 gear teeth" := by
  unfold createGearPairModel
  rw [if_pos h]

/-- The concrete 3-tooth configuration of the spec's final testable
property. -/
noncomputable def gearPairProps3 : GearPairProps :=
  { gearTeeth := 3, pinionTeeth := 12, sizeType := GearPairSizeType.mod,
    size := 2 }

/-- Witness for C7 at `gearTeeth = 3`. -/
theorem createGearPair_rejects_too_few_teeth_witness :
    gearPairProps3.gearTeeth < 4 ∧
    createGearPairModel gearPairProps3 =
      Except.error "Cannot have less than 4 gear teeth" :=
  ⟨by norm_num [gearPairProps3],
   createGearPair_rejects_too_few_teeth gearPairProps3
     (by norm_num [gearPairProps3])⟩

/-! ## Transform compositor (src/src/gearcutter/XFormPen.ts)

The scalar state of the `XForm` builder is embedded faithfully; the queued
upstream stage (`prevTransform`, a pen-wrapping closure) is abstracted to
its presence, which is all the builder state machine inspects. -/

/-- The scalar fields of the `XForm` builder plus whether a `prevTransform`
stage has been queued. -/
structure XFormState where
  hasPrev : Bool
  rotDegrees : ℝ
  flipYinFac : ℝ
  scaleFactor : ℝ
  tx : ℝ
  ty : ℝ

/-- The `XForm` constructor: the identity transform, no queued stage. -/
noncomputable def xfInit : XFormState :=
  { hasPrev := false, rotDegrees := 0, flipYinFac := 1.0,
    scaleFactor := 1.0, tx := 0.0, ty := 0.0 }

/-- `XForm.rotate` from `XFormPen.ts`: adds (flip-adjusted) degrees, then
normalizes into `[0, 360)` by subtracting `floor(rot/360)*360`. -/
noncomputable def xfRotate (st : XFormState) (degrees : ℝ) : XFormState :=
  let r1 := st.rotDegrees + degrees * st.flipYinFac
  { st with rotDegrees := r1 - (⌊r1 / 360.0⌋ : ℝ) * 360.0 }

open scoped Classical in
/-- `XForm.getXProjection` from `XFormPen.ts`: the image of the unit x
vector, with exact snapping at multiples of 90 degrees.  (The JS
`quarters & 1` int32 test is `⌊quarters⌋ % 2` here; they agree on the
reachable states, where `rotDegrees ∈ [0,360)`.) -/
noncomputable def getXProjection (st : XFormState) : ℝ × ℝ :=
  let xx := Real.cos (st.rotDegrees * Real.pi / 180.0)
  let xy := Real.sin (st.rotDegrees * Real.pi / 180.0)
  let quarters := st.rotDegrees / 90
  let snapped : ℝ × ℝ :=
    if (⌊quarters⌋ : ℝ) = quarters then
      if ⌊quarters⌋ % 2 = 0 then (Real.sign xx, 0) else (0, Real.sign xy)
    else (xx, xy)
  (snapped.1 * st.scaleFactor, snapped.2 * st.scaleFactor)

/-- `XForm.translate` from `XFormPen.ts`. -/
noncomputable def xfTranslate (st : XFormState) (x y : ℝ) : XFormState :=
  let xp := getXProjection st
  { st with tx := st.tx + x * xp.1 - y * st.flipYinFac * xp.2,
            ty := st.ty + x * xp.2 + y * st.flipYinFac * xp.1 }

open scoped Classical in
/-- The factor branch of `XForm.scale` from `XFormPen.ts`: a negative
factor becomes a 180 degree rotation plus the positive factor. -/
noncomputable def xfScaleCore (st : XFormState) (fac : ℝ) : XFormState :=
  if fac < 0.0 then
    { xfRotate st 180 with
      scaleFactor := (xfRotate st 180).scaleFactor * (-fac) }
  else
    { st with scaleFactor := st.scaleFactor * fac }

/-- `XForm.scale` from `XFormPen.ts`: the factor branch, then `flipY`
toggles the flip sign. -/
noncomputable def xfScale (st : XFormState) (fac : ℝ) (flipY : Bool) :
    XFormState :=
  if flipY then
    { xfScaleCore st fac with
      flipYinFac := -(xfScaleCore st fac).flipYinFac }
  else xfScaleCore st fac

open scoped Classical in
/-- `XForm.processInput` from `XFormPen.ts` (also reached through
`XForm.clip`): if the scalar transform is the identity the new stage is
appended to the queue; otherwise the scalars are folded into a new queued
stage and reset to the identity. -/
noncomputable def xfProcessInput (st : XFormState) : XFormState :=
  if st.rotDegrees = 0 ∧ st.flipYinFac = 1.0 ∧ st.scaleFactor = 1.0 ∧
      st.tx = 0.0 ∧ st.ty = 0.0 then
    { st with hasPrev := true }
  else
    { hasPrev := true, rotDegrees := 0, flipYinFac := 1.0,
      scaleFactor := 1.0, tx := 0.0, ty := 0.0 }

/-- One builder call on the `XForm`. -/
inductive XFormOp where
  | rotate (degrees : ℝ)
  | translate (x y : ℝ)
  | scale (fac : ℝ) (flipY : Bool)
  | clip (nx ny minprod : ℝ)
  | processInput

/-- Apply one builder call to the builder state. -/
noncomputable def xfApplyOp (st : XFormState) : XFormOp → XFormState
  | .rotate d => xfRotate st d
  | .translate x y => xfTranslate st x y
  | .scale fac flipY => xfScale st fac flipY
  | .clip _ _ _ => xfProcessInput st
  | .processInput => xfProcessInput st

/-- The builder state after a sequence of builder calls on a fresh
`XForm`. -/
noncomputable def xfRun (ops : List XFormOp) : XFormState :=
  ops.foldl xfApplyOp xfInit

/-- The C8 invariant: stored rotation in `[0, 360)`, stored scale `≥ 0`. -/
def XFormInv (st : XFormState) : Prop :=
  0 ≤ st.rotDegrees ∧ st.rotDegrees < 360 ∧ 0 ≤ st.scaleFactor

theorem xfRotate_inv (st : XFormState) (d : ℝ) (h : 0 ≤ st.scaleFactor) :
    XFormInv (xfRotate st d) := by
  unfold xfRotate XFormInv
  refine ⟨?_, ?_, h⟩ <;> dsimp only
  · have h1 : st.rotDegrees + d * st.flipYinFac -
        (⌊(st.rotDegrees + d * st.flipYinFac) / 360.0⌋ : ℝ) * 360.0 =
        Int.fract ((st.rotDegrees + d * st.flipYinFac) / 360.0) * 360.0 := by
      rw [Int.fract]
      have : (st.rotDegrees + d * st.flipYinFac) / 360.0 * 360.0 =
          st.rotDegrees + d * st.flipYinFac := by
        field_simp
      linarith [this]
    rw [h1]
    have := Int.fract_nonneg ((st.rotDegrees + d * st.flipYinFac) / 360.0)
    positivity
  · have h1 : st.rotDegrees + d * st.flipYinFac -
        (⌊(st.rotDegrees + d * st.flipYinFac) / 360.0⌋ : ℝ) * 360.0 =
        Int.fract ((st.rotDegrees + d * st.flipYinFac) / 360.0) * 360.0 := by
      rw [Int.fract]
      have : (st.rotDegrees + d * st.flipYinFac) / 360.0 * 360.0 =
          st.rotDegrees + d * st.flipYinFac := by
        field_simp
      linarith [this]
    rw [h1]
    have := Int.fract_lt_one ((st.rotDegrees + d * st.flipYinFac) / 360.0)
    nlinarith

theorem xfScaleCore_inv (st : XFormState) (fac : ℝ) (h : XFormInv st) :
    XFormInv (xfScaleCore st fac) := by
  obtain ⟨h0, h1, h2⟩ := h
  unfold xfScaleCore
  split
  · rename_i hneg
    have hrot := xfRotate_inv st 180 h2
    obtain ⟨r0, r1, r2⟩ := hrot
    refine ⟨r0, r1, ?_⟩
    show 0 ≤ (xfRotate st 180).scaleFactor * (-fac)
    exact mul_nonneg r2 (by linarith)
  · rename_i hpos
    push_neg at hpos
    norm_num at hpos
    refine ⟨h0, h1, ?_⟩
    show 0 ≤ st.scaleFactor * fac
    exact mul_nonneg h2 hpos

theorem xfScale_inv (st : XFormState) (fac : ℝ) (flipY : Bool)
    (h : XFormInv st) : XFormInv (xfScale st fac flipY) := by
  have key := xfScaleCore_inv st fac h
  unfold xfScale
  split
  · exact ⟨key.1, key.2.1, key.2.2⟩
  · exact key

theorem xfProcessInput_inv (st : XFormState) (h : XFormInv st) :
    XFormInv (xfProcessInput st) := by
  unfold xfProcessInput
  split
  · exact h
  · exact ⟨le_refl 0, by norm_num, by norm_num⟩

theorem xfApplyOp_inv (st : XFormState) (op : XFormOp) (h : XFormInv st) :
    XFormInv (xfApplyOp st op) := by
  cases op with
  | rotate d => exact xfRotate_inv st d h.2.2
  | translate x y => exact ⟨h.1, h.2.1, h.2.2⟩
  | scale fac flipY => exact xfScale_inv st fac flipY h
  | clip nx ny minprod => exact xfProcessInput_inv st h
  | processInput => exact xfProcessInput_inv st h

theorem xfFoldl_inv (ops : List XFormOp) (st : XFormState)
    (h : XFormInv st) : XFormInv (ops.foldl xfApplyOp st) := by
  induction ops generalizing st with
  | nil => exact h
  | cons op rest ih =>
      exact ih (xfApplyOp st op) (xfApplyOp_inv st op h)

/-- Claim C8.  After any sequence of `XForm` builder calls the stored
rotation is in `[0, 360)` degrees and the stored scale factor is `≥ 0`;
moreover a scale by a negative factor equals a 180 degree rotation followed
by a scale by the corresponding positive factor. -/
theorem xform_rotation_normalized_scale_nonneg (ops : List XFormOp) :
    XFormInv (xfRun ops) ∧
    (∀ (st : XFormState) (fac : ℝ) (flipY : Bool), fac < 0 →
      xfScale st fac flipY = xfScale (xfRotate st 180) (-fac) flipY) := by
  constructor
  · exact xfFoldl_inv ops xfInit
      ⟨le_refl 0, by norm_num [xfInit], by norm_num [xfInit]⟩
  · intro st fac flipY hneg
    have hcore : xfScaleCore st fac = xfScaleCore (xfRotate st 180) (-fac) := by
      unfold xfScaleCore
      rw [if_pos (show fac < 0.0 by norm_num; exact hneg),
        if_neg (show ¬(-fac < 0.0) by push_neg; norm_num; linarith)]
    unfold xfScale
    rw [hcore]

/-- Witness for C8: a concrete call sequence, and the negative-scale
normalization at a concrete state and factor. -/
theorem xform_rotation_normalized_witness :
    ((-2 : ℝ) < 0) ∧
    (XFormInv (xfRun [XFormOp.rotate 450, XFormOp.scale (-2) false]) ∧
      (∀ (st : XFormState) (fac : ℝ) (flipY : Bool), fac < 0 →
        xfScale st fac flipY = xfScale (xfRotate st 180) (-fac) flipY)) ∧
    xfScale xfInit (-2) false = xfScale (xfRotate xfInit 180) (-(-2)) false :=
  ⟨by norm_num,
   xform_rotation_normalized_scale_nonneg
     [XFormOp.rotate 450, XFormOp.scale (-2) false],
   (xform_rotation_normalized_scale_nonneg []).2 xfInit (-2) false
     (by norm_num)⟩

/-! ## Last point capture pen (src/src/gearcutter/LastPointCapturePen.ts) -/

/-- The state of a `LastPointCapturePen`: the coordinate fields start
`undefined` and hold the last point sent by any operation. -/
structure CapState where
  x : Option ℚ
  y : Option ℚ
deriving DecidableEq, Repr

/-- `moveTo`/`arcTo` of `LastPointCapturePen`: both just record the target
point. -/
def capApplyOp (_st : CapState) (op : PenOp ℚ) : CapState :=
  match op with
  | .move x y => { x := some x, y := some y }
  | .arc x y _ => { x := some x, y := some y }

/-- The capture pen state after a sequence of pen operations on a fresh
pen. -/
def capRun (ops : List (PenOp ℚ)) : CapState :=
  ops.foldl capApplyOp { x := none, y := none }

/-- `LastPointCapturePen.transferMove`: the calls performed on the target
pen, and the returned boolean. -/
def transferMove (st : CapState) : List (PenOp ℚ) × Bool :=
  match st.x, st.y with
  | some x, some y => ([PenOp.move x y], true)
  | _, _ => ([], false)

theorem capRun_nonempty (ops : List (PenOp ℚ)) (st : CapState)
    (h : ops ≠ []) :
    ops.foldl capApplyOp st =
      { x := some ((ops.getLastD (PenOp.move 0 0)).pt).1,
        y := some ((ops.getLastD (PenOp.move 0 0)).pt).2 } := by
  induction ops generalizing st with
  | nil => exact absurd rfl h
  | cons op rest ih =>
      cases rest with
      | nil => cases op <;> rfl
      | cons b l =>
          have hne : b :: l ≠ [] := by simp
          rw [List.foldl_cons, ih (capApplyOp st op) hne]
          simp only [List.getLastD_cons]

/-- Claim C10.  If no `moveTo` or `arcTo` has ever been called on a
`LastPointCapturePen`, `transferMove` performs no call on the target pen
and returns `false`; after at least one operation it performs exactly one
`moveTo` with the most recently received point and returns `true`. -/
theorem lastPointCapture_transferMove (ops : List (PenOp ℚ)) :
    (ops = [] → transferMove (capRun ops) = ([], false)) ∧
    (ops ≠ [] → transferMove (capRun ops) =
      ([PenOp.move ((ops.getLastD (PenOp.move 0 0)).pt).1
          ((ops.getLastD (PenOp.move 0 0)).pt).2], true)) := by
  constructor
  · intro h
    subst h
    rfl
  · intro h
    unfold capRun
    rw [capRun_nonempty ops _ h]
    rfl

/-- Witness for C10 at the empty sequence and at a concrete two-operation
sequence. -/
theorem lastPointCapture_transferMove_witness :
    (([] : List (PenOp ℚ)) = [] ∧
      transferMove (capRun []) = ([], false)) ∧
    (([PenOp.move 1 2, PenOp.arc 3 4 0] : List (PenOp ℚ)) ≠ [] ∧
      transferMove (capRun [PenOp.move 1 2, PenOp.arc 3 4 0]) =
        ([PenOp.move 3 4], true)) :=
  ⟨⟨rfl, (lastPointCapture_transferMove []).1 rfl⟩,
   ⟨by decide, (lastPointCapture_transferMove
      [PenOp.move 1 2, PenOp.arc 3 4 0]).2 (by decide)⟩⟩

/-! ## Half-plane clipping pen (src/src/gearcutter/ClippingPen.ts) -/

/-- Modelled from the spec: `searchForFloat` from
`utils/floatBinarySearch.ts` is not in the source tree.  Per spec section
4.7 it binary-searches `[lo, hi]` for the crossing of a monotone predicate
that holds at `lo` and fails at `hi`, returning the final one-ulp bracket
(last parameter on the `lo` side, first parameter on the `hi` side); over
the idealized reals both bracket ends collapse to the supremum of the set
where the predicate holds. -/
noncomputable def searchForFloat (lo hi : ℝ) (pred : ℝ → Prop) : ℝ × ℝ :=
  (sSup {t : ℝ | lo ≤ t ∧ t ≤ hi ∧ pred t},
   sSup {t : ℝ | lo ≤ t ∧ t ≤ hi ∧ pred t})

/-- The state of a `CrappyClippingPen`: the (normalized) clipping line and
the tracked previous point / side. -/
structure ClipState where
  nx : ℝ
  ny : ℝ
  minprod : ℝ
  tx : ℝ
  ty : ℝ
  havePoint : Bool
  isInside : Bool

/-- The `CrappyClippingPen` constructor: normalizes the line normal and
offset by the magnitude of `(nx, ny)`. -/
noncomputable def mkClip (nx ny minprod : ℝ) : ClipState :=
  { nx := nx / Real.sqrt (nx * nx + ny * ny),
    ny := ny / Real.sqrt (nx * nx + ny * ny),
    minprod := minprod / Real.sqrt (nx * nx + ny * ny),
    tx := 0, ty := 0, havePoint := false, isInside := false }


/-- The state after a clipping pen operation that records target point
`(x,y)`, marks the point present, and sets the side flag to `b`. -/
def clipStepState (st : ClipState) (x y : ℝ) (b : Bool) : ClipState :=
  { st with tx := x, ty := y, havePoint := true, isInside := b }

theorem clipStepState_nx (st : ClipState) (x y : ℝ) (b : Bool) :
    (clipStepState st x y b).nx = st.nx := rfl

theorem clipStepState_ny (st : ClipState) (x y : ℝ) (b : Bool) :
    (clipStepState st x y b).ny = st.ny := rfl

theorem clipStepState_minprod (st : ClipState) (x y : ℝ) (b : Bool) :
    (clipStepState st x y b).minprod = st.minprod := rfl

open scoped Classical in
/-- `CrappyClippingPen.moveTo`: records the point, computes the side, and
forwards the move only when inside. -/
noncomputable def clipMoveTo (st : ClipState) (x y : ℝ) :
    ClipState × List (PenOp ℝ) :=
  if x * st.nx + y * st.ny > st.minprod then
    (clipStepState st x y true, [PenOp.move x y])
  else
    (clipStepState st x y false, [])

/-- The parameter of `CrappyClippingPen.arcTo`'s straight-segment clip:
linear interpolation of the signed products. -/
noncomputable def linearClipParam (st : ClipState) (x y : ℝ) : ℝ :=
  (st.minprod - (st.tx * st.nx + st.ty * st.ny)) /
    (x * st.nx + y * st.ny - (st.tx * st.nx + st.ty * st.ny))

/-- The crossing point of `CrappyClippingPen.arcTo`'s straight-segment
clip. -/
noncomputable def linearClipPoint (st : ClipState) (x y : ℝ) : ℝ × ℝ :=
  (st.tx + (x - st.tx) * linearClipParam st x y,
   st.ty + (y - st.ty) * linearClipParam st x y)

/-- The signed product of the interpolated arc point at turn parameter `t`
against the clipping line (the quantity the binary-search predicates of
`CrappyClippingPen.arcTo` compare with `minprod`). -/
noncomputable def clipArcProd (st : ClipState) (x y turn t : ℝ) : ℝ :=
  (interpolateArcTurn st.tx st.ty x y turn t).1 * st.nx +
    (interpolateArcTurn st.tx st.ty x y turn t).2 * st.ny

/-- The bisected turn parameter for a curved segment entering the keep
side: `searchForFloat(0, turn, outside-predicate)[1]`. -/
noncomputable def clipEnterTurn (st : ClipState) (x y turn : ℝ) : ℝ :=
  (searchForFloat 0 turn (fun t => clipArcProd st x y turn t < st.minprod)).2

/-- The point emitted when a curved segment enters the keep side. -/
noncomputable def clipEnterPoint (st : ClipState) (x y turn : ℝ) : ℝ × ℝ :=
  interpolateArcTurn st.tx st.ty x y turn (clipEnterTurn st x y turn)

/-- The bisected turn parameter for a curved segment leaving the keep
side: `searchForFloat(0, turn, inside-predicate)[0]`. -/
noncomputable def clipExitTurn (st : ClipState) (x y turn : ℝ) : ℝ :=
  (searchForFloat 0 turn (fun t => clipArcProd st x y turn t ≥ st.minprod)).1

/-- The point emitted when a curved segment leaves the keep side. -/
noncomputable def clipExitPoint (st : ClipState) (x y turn : ℝ) : ℝ × ℝ :=
  interpolateArcTurn st.tx st.ty x y turn (clipExitTurn st x y turn)

open scoped Classical in
/-- `CrappyClippingPen.arcTo`: forwards same-side segments (emitting only
on the keep side), and clips crossing segments — by linear interpolation of
the crossing parameter when `turn < 1e-6`, and by binary search on the arc
interpolation otherwise.  (On the same-side path the source leaves
`havePoint` untouched; it is already `true` on this path, so
`clipStepState` is the same record.) -/
noncomputable def clipArcTo (st : ClipState) (x y turn : ℝ) :
    ClipState × List (PenOp ℝ) :=
  match st.havePoint with
  | false => clipMoveTo st x y
  | true =>
    let newInside : Bool :=
      match st.isInside with
      | true => if x * st.nx + y * st.ny ≥ st.minprod then true else false
      | false => if x * st.nx + y * st.ny > st.minprod then true else false
    if st.isInside = newInside then
      (clipStepState st x y newInside,
       match st.isInside with
       | true => [PenOp.arc x y turn]
       | false => [])
    else if turn < 1e-6 then
      match newInside with
      | true =>
          (clipStepState st x y newInside,
           PenOp.move (linearClipPoint st x y).1 (linearClipPoint st x y).2 ::
             (if x ≠ (linearClipPoint st x y).1 ∨
                 y ≠ (linearClipPoint st x y).2
              then [PenOp.arc x y 0] else []))
      | false =>
          (clipStepState st x y newInside,
           if (linearClipPoint st x y).1 ≠ st.tx ∨
              (linearClipPoint st x y).2 ≠ st.ty
           then [PenOp.arc (linearClipPoint st x y).1
                  (linearClipPoint st x y).2 0]
           else [])
    else
      match newInside with
      | true =>
          (clipStepState st x y newInside,
           PenOp.move (clipEnterPoint st x y turn).1
               (clipEnterPoint st x y turn).2 ::
             (if x ≠ (clipEnterPoint st x y turn).1 ∨
                 y ≠ (clipEnterPoint st x y turn).2
              then [PenOp.arc x y (turn - clipEnterTurn st x y turn)]
              else []))
      | false =>
          (clipStepState st x y newInside,
           if (clipExitPoint st x y turn).1 ≠ st.tx ∨
              (clipExitPoint st x y turn).2 ≠ st.ty
           then [PenOp.arc (clipExitPoint st x y turn).1
                  (clipExitPoint st x y turn).2 (clipExitTurn st x y turn)]
           else [])

/-- One pen operation fed to the clipping pen, threading the accumulated
output. -/
noncomputable def clipApplyOp : ClipState × List (PenOp ℝ) → PenOp ℝ →
    ClipState × List (PenOp ℝ)
  | (st, acc), .move x y => ((clipMoveTo st x y).1, acc ++ (clipMoveTo st x y).2)
  | (st, acc), .arc x y t => ((clipArcTo st x y t).1, acc ++ (clipArcTo st x y t).2)

/-- The clipping pen run on a whole path: final state and emitted path. -/
noncomputable def runClip (st : ClipState) (ops : List (PenOp ℝ)) :
    ClipState × List (PenOp ℝ) :=
  ops.foldl clipApplyOp (st, [])

/-- A well-formed path: the first operation, if any, is a `move`. -/
def wfPath {α : Type} : List (PenOp α) → Prop
  | [] => True
  | op :: _ => op.isMove = true

theorem clipApplyOp_move_inside (st : ClipState) (acc : List (PenOp ℝ))
    (x y : ℝ) (h : x * st.nx + y * st.ny > st.minprod) :
    clipApplyOp (st, acc) (PenOp.move x y) =
      (clipStepState st x y true, acc ++ [PenOp.move x y]) := by
  show ((clipMoveTo st x y).1, acc ++ (clipMoveTo st x y).2) = _
  unfold clipMoveTo
  rw [if_pos h]

theorem clipApplyOp_move_outside (st : ClipState) (acc : List (PenOp ℝ))
    (x y : ℝ) (h : ¬(x * st.nx + y * st.ny > st.minprod)) :
    clipApplyOp (st, acc) (PenOp.move x y) =
      (clipStepState st x y false, acc) := by
  show ((clipMoveTo st x y).1, acc ++ (clipMoveTo st x y).2) = _
  unfold clipMoveTo
  rw [if_neg h]
  simp

theorem clipArcTo_inside (st : ClipState) (x y t : ℝ)
    (hin : st.isInside = true) (hhp : st.havePoint = true)
    (hop : x * st.nx + y * st.ny > st.minprod) :
    clipArcTo st x y t = (clipStepState st x y true, [PenOp.arc x y t]) := by
  unfold clipArcTo
  rw [hhp, hin]
  simp only
  rw [if_pos (le_of_lt hop), if_pos rfl]

theorem clipApplyOp_inside (st : ClipState) (acc : List (PenOp ℝ))
    (op : PenOp ℝ) (hin : st.isInside = true) (hhp : st.havePoint = true)
    (hop : op.pt.1 * st.nx + op.pt.2 * st.ny > st.minprod) :
    clipApplyOp (st, acc) op =
      (clipStepState st op.pt.1 op.pt.2 true, acc ++ [op]) := by
  cases op with
  | move x y => exact clipApplyOp_move_inside st acc x y hop
  | arc x y t =>
      show ((clipArcTo st x y t).1, acc ++ (clipArcTo st x y t).2) = _
      rw [clipArcTo_inside st x y t hin hhp hop]
      simp [PenOp.pt]

theorem clipArcTo_outside (st : ClipState) (x y t : ℝ)
    (hin : st.isInside = false)
    (hop : ¬(x * st.nx + y * st.ny > st.minprod)) :
    clipArcTo st x y t = (clipStepState st x y false, []) := by
  unfold clipArcTo
  cases hhp : st.havePoint with
  | false =>
      simp only
      unfold clipMoveTo
      rw [if_neg hop]
  | true =>
      simp only [hin]
      rw [if_neg hop, if_pos rfl]

theorem clipApplyOp_outside (st : ClipState) (acc : List (PenOp ℝ))
    (op : PenOp ℝ) (hin : st.isInside = false)
    (hop : op.pt.1 * st.nx + op.pt.2 * st.ny ≤ st.minprod) :
    clipApplyOp (st, acc) op =
      (clipStepState st op.pt.1 op.pt.2 false, acc) := by
  cases op with
  | move x y => exact clipApplyOp_move_outside st acc x y (not_lt.mpr hop)
  | arc x y t =>
      show ((clipArcTo st x y t).1, acc ++ (clipArcTo st x y t).2) = _
      rw [clipArcTo_outside st x y t hin (not_lt.mpr hop)]
      simp [PenOp.pt]

theorem clip_fold_inside (ops : List (PenOp ℝ)) :
    ∀ (st : ClipState) (acc : List (PenOp ℝ)),
      st.isInside = true → st.havePoint = true →
      (∀ op ∈ ops, op.pt.1 * st.nx + op.pt.2 * st.ny > st.minprod) →
      (ops.foldl clipApplyOp (st, acc)).2 = acc ++ ops := by
  induction ops with
  | nil =>
      intro st acc _ _ _
      simp
  | cons op rest ih =>
      intro st acc hin hhp hall
      have hop := hall op (by simp)
      rw [List.foldl_cons, clipApplyOp_inside st acc op hin hhp hop]
      have hrest : ∀ o ∈ rest,
          o.pt.1 * (clipStepState st op.pt.1 op.pt.2 true).nx +
            o.pt.2 * (clipStepState st op.pt.1 op.pt.2 true).ny >
            (clipStepState st op.pt.1 op.pt.2 true).minprod := by
        intro o ho
        rw [clipStepState_nx, clipStepState_ny, clipStepState_minprod]
        exact hall o (by simp [ho])
      rw [ih _ (acc ++ [op]) rfl rfl hrest]
      simp

theorem clip_fold_outside (ops : List (PenOp ℝ)) :
    ∀ (st : ClipState) (acc : List (PenOp ℝ)),
      st.isInside = false →
      (∀ op ∈ ops, op.pt.1 * st.nx + op.pt.2 * st.ny ≤ st.minprod) →
      (ops.foldl clipApplyOp (st, acc)).2 = acc := by
  induction ops with
  | nil =>
      intro st acc _ _
      rfl
  | cons op rest ih =>
      intro st acc hin hall
      have hop := hall op (by simp)
      rw [List.foldl_cons, clipApplyOp_outside st acc op hin hop]
      have hrest : ∀ o ∈ rest,
          o.pt.1 * (clipStepState st op.pt.1 op.pt.2 false).nx +
            o.pt.2 * (clipStepState st op.pt.1 op.pt.2 false).ny ≤
            (clipStepState st op.pt.1 op.pt.2 false).minprod := by
        intro o ho
        rw [clipStepState_nx, clipStepState_ny, clipStepState_minprod]
        exact hall o (by simp [ho])
      exact ih _ acc rfl hrest

/-- Claim C6.  A path whose points all lie strictly on the keep side
(`x·nx + y·ny > minprod`) passes through the clipping pen unchanged,
point-for-point; a path whose points all lie on the discard side
(`x·nx + y·ny ≤ minprod`) produces an empty output. -/
theorem clip_inside_passthrough_outside_empty (nx ny minprod : ℝ)
    (ops : List (PenOp ℝ)) (hmag : 0 < nx * nx + ny * ny)
    (hwf : wfPath ops) :
    ((∀ op ∈ ops, op.pt.1 * nx + op.pt.2 * ny > minprod) →
      (runClip (mkClip nx ny minprod) ops).2 = ops) ∧
    ((∀ op ∈ ops, op.pt.1 * nx + op.pt.2 * ny ≤ minprod) →
      (runClip (mkClip nx ny minprod) ops).2 = []) := by
  have hmagpos : 0 < Real.sqrt (nx * nx + ny * ny) := Real.sqrt_pos.mpr hmag
  have hdot : ∀ x y : ℝ,
      x * (nx / Real.sqrt (nx * nx + ny * ny)) +
        y * (ny / Real.sqrt (nx * nx + ny * ny)) =
        (x * nx + y * ny) / Real.sqrt (nx * nx + ny * ny) := by
    intro x y
    rw [← mul_div_assoc, ← mul_div_assoc, div_add_div_same]
  have hgt : ∀ x y : ℝ,
      (x * (mkClip nx ny minprod).nx + y * (mkClip nx ny minprod).ny >
        (mkClip nx ny minprod).minprod) ↔ (x * nx + y * ny > minprod) := by
    intro x y
    show (x * (nx / Real.sqrt (nx * nx + ny * ny)) +
      y * (ny / Real.sqrt (nx * nx + ny * ny)) >
      minprod / Real.sqrt (nx * nx + ny * ny)) ↔ _
    rw [hdot]
    exact div_lt_div_iff_of_pos_right hmagpos
  have hle : ∀ x y : ℝ,
      (x * (mkClip nx ny minprod).nx + y * (mkClip nx ny minprod).ny ≤
        (mkClip nx ny minprod).minprod) ↔ (x * nx + y * ny ≤ minprod) := by
    intro x y
    show (x * (nx / Real.sqrt (nx * nx + ny * ny)) +
      y * (ny / Real.sqrt (nx * nx + ny * ny)) ≤
      minprod / Real.sqrt (nx * nx + ny * ny)) ↔ _
    rw [hdot]
    exact div_le_div_iff_of_pos_right hmagpos
  constructor
  · intro hall
    cases ops with
    | nil => rfl
    | cons op rest =>
        cases op with
        | arc a b c => simp [wfPath, PenOp.isMove] at hwf
        | move x0 y0 =>
            unfold runClip
            rw [List.foldl_cons,
              clipApplyOp_move_inside _ [] x0 y0
                ((hgt x0 y0).mpr (by
                  have h := hall (PenOp.move x0 y0) (by simp)
                  simpa [PenOp.pt] using h))]
            have hrest : ∀ o ∈ rest,
                o.pt.1 * (clipStepState (mkClip nx ny minprod) x0 y0 true).nx +
                  o.pt.2 * (clipStepState (mkClip nx ny minprod) x0 y0 true).ny >
                  (clipStepState (mkClip nx ny minprod) x0 y0 true).minprod := by
              intro o ho
              rw [clipStepState_nx, clipStepState_ny, clipStepState_minprod]
              exact (hgt o.pt.1 o.pt.2).mpr (hall o (by simp [ho]))
            rw [List.nil_append,
              clip_fold_inside rest _ [PenOp.move x0 y0] rfl rfl hrest]
            rfl
  · intro hall
    unfold runClip
    have hall2 : ∀ op ∈ ops,
        op.pt.1 * (mkClip nx ny minprod).nx +
          op.pt.2 * (mkClip nx ny minprod).ny ≤
          (mkClip nx ny minprod).minprod := by
      intro op hop
      exact (hle op.pt.1 op.pt.2).mpr (hall op hop)
    exact clip_fold_outside ops (mkClip nx ny minprod) [] rfl hall2

/-- Witness for C6 on the line `x ≥ -1` (normal `(1,0)`, `minprod = -1`):
a concrete two-point inside path passes through unchanged. -/
theorem clip_inside_passthrough_outside_empty_witness :
    ((0 : ℝ) < 1 * 1 + 0 * 0) ∧
    wfPath [PenOp.move (0 : ℝ) 5, PenOp.arc 2 5 0] ∧
    (∀ op ∈ [PenOp.move (0 : ℝ) 5, PenOp.arc 2 5 0],
      op.pt.1 * 1 + op.pt.2 * 0 > (-1 : ℝ)) ∧
    (runClip (mkClip 1 0 (-1)) [PenOp.move (0 : ℝ) 5, PenOp.arc 2 5 0]).2 =
      [PenOp.move (0 : ℝ) 5, PenOp.arc 2 5 0] := by
  have h1 : (0 : ℝ) < 1 * 1 + 0 * 0 := by norm_num
  have h2 : wfPath [PenOp.move (0 : ℝ) 5, PenOp.arc 2 5 0] := rfl
  have h3 : ∀ op ∈ [PenOp.move (0 : ℝ) 5, PenOp.arc 2 5 0],
      op.pt.1 * 1 + op.pt.2 * 0 > (-1 : ℝ) := by
    intro op hop
    simp only [List.mem_cons, List.not_mem_nil, or_false] at hop
    rcases hop with h | h <;> subst h <;>
      simp only [PenOp.pt] <;> norm_num
  exact ⟨h1, h2, h3,
    (clip_inside_passthrough_outside_empty 1 0 (-1)
      [PenOp.move (0 : ℝ) 5, PenOp.arc 2 5 0] h1 h2).1 h3⟩

/-- The result of `CrappyClippingPen.arcTo` on a segment crossing from the
keep side to the discard side with `turn < 1e-6`: linear interpolation. -/
theorem clipArcTo_in_to_out_linear (st : ClipState) (x y turn : ℝ)
    (hhp : st.havePoint = true) (hin : st.isInside = true)
    (hout : ¬(x * st.nx + y * st.ny ≥ st.minprod)) (hturn : turn < 1e-6) :
    clipArcTo st x y turn =
      (clipStepState st x y false,
       if (linearClipPoint st x y).1 ≠ st.tx ∨
          (linearClipPoint st x y).2 ≠ st.ty
       then [PenOp.arc (linearClipPoint st x y).1
              (linearClipPoint st x y).2 0]
       else []) := by
  unfold clipArcTo
  rw [hhp, hin]
  simp only
  rw [if_neg hout, if_neg (by simp), if_pos hturn]

/-- The result of `CrappyClippingPen.arcTo` on a segment crossing from the
keep side to the discard side with `turn ≥ 1e-6`: binary search via
`interpolateArcTurn`. -/
theorem clipArcTo_in_to_out_search (st : ClipState) (x y turn : ℝ)
    (hhp : st.havePoint = true) (hin : st.isInside = true)
    (hout : ¬(x * st.nx + y * st.ny ≥ st.minprod))
    (hturn : ¬(turn < 1e-6)) :
    clipArcTo st x y turn =
      (clipStepState st x y false,
       if (clipExitPoint st x y turn).1 ≠ st.tx ∨
          (clipExitPoint st x y turn).2 ≠ st.ty
       then [PenOp.arc (clipExitPoint st x y turn).1
              (clipExitPoint st x y turn).2 (clipExitTurn st x y turn)]
       else []) := by
  unfold clipArcTo
  rw [hhp, hin]
  simp only
  rw [if_neg hout, if_neg (by simp), if_neg hturn]

/-- The concrete clipping pen state used for claim C4: keep side
`x·1 + y·0 > -1`, previous point `(0, 0)` (inside), as produced by the
constructor plus `moveTo(0, 0)`. -/
noncomputable def clipStateC4 : ClipState :=
  { nx := 1, ny := 0, minprod := -1, tx := 0, ty := 0,
    havePoint := true, isInside := true }

/-- Claim C4 counterexample.  The pen with keep side `x·1 + y·0 > -1`, after
`moveTo(0,0)` (inside), is fed `arcTo(-2, 0, -π)` — a semicircle, whose
turn is significantly nonzero, crossing the boundary `x = -1`.  Because the
code tests `turn < 1e-6` (not `|turn|`), it takes the straight-segment
branch and emits the linear interpolation `(-1, 0)` of the crossing
parameter.  That point is the arc's center, not a point of the arc: the
arc from `(0,0)` to `(-2,0)` with turn `-π` has radius `-1`
(`radiusFromDistance 2 (-π)`), both endpoints are at squared distance `1`
from `(-1, 0)` (the unique point equidistant `1` from both, hence the
circle center), and the emitted point is at squared distance `0 ≠ 1`. -/
theorem clip_curved_segment_clipped_linearly :
    clipMoveTo (mkClip 1 0 (-1)) 0 0 = (clipStateC4, [PenOp.move 0 0]) ∧
    (clipArcTo clipStateC4 (-2) 0 (-Real.pi)).2 = [PenOp.arc (-1) 0 0] ∧
    -Real.pi < 1e-6 ∧ 3 < Real.pi ∧
    radiusFromDistance 2 (-Real.pi) = -1 ∧
    (((0 : ℝ) - (-1)) ^ 2 + ((0 : ℝ) - 0) ^ 2 = 1 ∧
     ((-2 : ℝ) - (-1)) ^ 2 + ((0 : ℝ) - 0) ^ 2 = 1 ∧
     ((-1 : ℝ) - (-1)) ^ 2 + ((0 : ℝ) - 0) ^ 2 ≠ 1) := by
  have hpi := Real.pi_gt_three
  refine ⟨?_, ?_, by linarith, hpi, ?_, by norm_num, by norm_num, by norm_num⟩
  · unfold clipMoveTo mkClip clipStepState clipStateC4
    rw [if_pos]
    · norm_num [Real.sqrt_one]
    · show (0 : ℝ) * _ + 0 * _ > -1 / Real.sqrt (1 * 1 + 0 * 0)
      norm_num [Real.sqrt_one]
  · have hpt : linearClipPoint clipStateC4 (-2) 0 = (-1, 0) := by
      unfold linearClipPoint linearClipParam clipStateC4
      norm_num
    rw [clipArcTo_in_to_out_linear clipStateC4 (-2) 0 (-Real.pi) rfl rfl
      (by unfold clipStateC4; norm_num) (by linarith)]
    simp only [hpt]
    rw [if_pos (by unfold clipStateC4; norm_num)]
  · unfold radiusFromDistance
    have h : (-Real.pi) * 0.5 = -(Real.pi * 0.5) := by ring
    rw [h, Real.sin_neg, sin_pi_mul_half]
    norm_num

open scoped Classical in
/-- The result of `CrappyClippingPen.arcTo` on a segment crossing from the
discard side to the keep side with `turn < 1e-6`: a move to the linear
interpolation of the crossing parameter, then the straight remainder. -/
theorem clipArcTo_out_to_in_linear (st : ClipState) (x y turn : ℝ)
    (hhp : st.havePoint = true) (hin : st.isInside = false)
    (hgt : x * st.nx + y * st.ny > st.minprod) (hturn : turn < 1e-6) :
    clipArcTo st x y turn =
      (clipStepState st x y true,
       PenOp.move (linearClipPoint st x y).1 (linearClipPoint st x y).2 ::
         (if x ≠ (linearClipPoint st x y).1 ∨
             y ≠ (linearClipPoint st x y).2
          then [PenOp.arc x y 0] else [])) := by
  unfold clipArcTo
  rw [hhp, hin]
  simp only
  rw [if_pos hgt, if_neg (by simp), if_pos hturn]

/-- The result of `CrappyClippingPen.arcTo` on a segment crossing from the
discard side to the keep side with `turn ≥ 1e-6`: a move to the arc
interpolation at the bisected parameter, then the remainder arc with the
remaining turn. -/
theorem clipArcTo_out_to_in_search (st : ClipState) (x y turn : ℝ)
    (hhp : st.havePoint = true) (hin : st.isInside = false)
    (hgt : x * st.nx + y * st.ny > st.minprod)
    (hturn : ¬(turn < 1e-6)) :
    clipArcTo st x y turn =
      (clipStepState st x y true,
       PenOp.move (clipEnterPoint st x y turn).1
           (clipEnterPoint st x y turn).2 ::
         (if x ≠ (clipEnterPoint st x y turn).1 ∨
             y ≠ (clipEnterPoint st x y turn).2
          then [PenOp.arc x y (turn - clipEnterTurn st x y turn)]
          else [])) := by
  unfold clipArcTo
  rw [hhp, hin]
  simp only
  rw [if_pos hgt, if_neg (by simp), if_neg hturn]

/-- Claim C4 (amended).  Whenever a segment fed to the half-plane clipping
pen crosses the boundary, in either direction: if `turn < 1e-6` — which
includes every negative-turn (clockwise) segment, however strongly curved
— the pen clips by direct linear interpolation of the crossing parameter;
only when `turn ≥ 1e-6` does it binary-search the turn parameter along
the arc via `interpolateArcTurn` and emit the arc interpolation at the
found bracket end (on exit from the keep side, the trimmed arc up to the
crossing; on entry, a move to the crossing followed by the remainder arc
with the remaining turn) — a point which, due to the `interpolateArcTurn`
defect recorded at C1, need not lie on the true arc. -/
theorem clipArcTo_crossing_mechanism (st : ClipState) (x y turn : ℝ)
    (hhp : st.havePoint = true) :
    ((st.isInside = true ∧ x * st.nx + y * st.ny < st.minprod) →
      (turn < 1e-6 →
        (clipArcTo st x y turn).2 =
          (if (linearClipPoint st x y).1 ≠ st.tx ∨
              (linearClipPoint st x y).2 ≠ st.ty
           then [PenOp.arc (linearClipPoint st x y).1
                  (linearClipPoint st x y).2 0]
           else [])) ∧
      (1e-6 ≤ turn →
        (clipArcTo st x y turn).2 =
          (if (clipExitPoint st x y turn).1 ≠ st.tx ∨
              (clipExitPoint st x y turn).2 ≠ st.ty
           then [PenOp.arc (clipExitPoint st x y turn).1
                  (clipExitPoint st x y turn).2 (clipExitTurn st x y turn)]
           else []))) ∧
    ((st.isInside = false ∧ x * st.nx + y * st.ny > st.minprod) →
      (turn < 1e-6 →
        (clipArcTo st x y turn).2 =
          PenOp.move (linearClipPoint st x y).1
              (linearClipPoint st x y).2 ::
            (if x ≠ (linearClipPoint st x y).1 ∨
                y ≠ (linearClipPoint st x y).2
             then [PenOp.arc x y 0] else [])) ∧
      (1e-6 ≤ turn →
        (clipArcTo st x y turn).2 =
          PenOp.move (clipEnterPoint st x y turn).1
              (clipEnterPoint st x y turn).2 ::
            (if x ≠ (clipEnterPoint st x y turn).1 ∨
                y ≠ (clipEnterPoint st x y turn).2
             then [PenOp.arc x y (turn - clipEnterTurn st x y turn)]
             else []))) := by
  constructor
  · rintro ⟨hin, hout⟩
    constructor
    · intro hturn
      rw [clipArcTo_in_to_out_linear st x y turn hhp hin
        (not_le.mpr hout) hturn]
    · intro hturn
      rw [clipArcTo_in_to_out_search st x y turn hhp hin
        (not_le.mpr hout) (not_lt.mpr hturn)]
  · rintro ⟨hin, hgt⟩
    constructor
    · intro hturn
      rw [clipArcTo_out_to_in_linear st x y turn hhp hin hgt hturn]
    · intro hturn
      rw [clipArcTo_out_to_in_search st x y turn hhp hin hgt
        (not_lt.mpr hturn)]

/-- The concrete clipping pen state for the discard-to-keep direction of
claim C4: same keep side `x·1 + y·0 > -1`, previous point `(-2, 0)` on the
discard side. -/
noncomputable def clipStateC4out : ClipState :=
  { nx := 1, ny := 0, minprod := -1, tx := -2, ty := 0,
    havePoint := true, isInside := false }

/-- Witness for C4 (amended) at concrete crossings in both directions:
from `(0,0)` (keep side) to `(-2,0)` (discard side), and from `(-2,0)`
(discard side) to `(0,0)` (keep side), against the line `x > -1`, both
with segment turn `-π` falling in the linear branch. -/
theorem clipArcTo_crossing_mechanism_witness :
    clipStateC4.havePoint = true ∧
    (clipStateC4.isInside = true ∧
      (-2 : ℝ) * clipStateC4.nx + 0 * clipStateC4.ny <
        clipStateC4.minprod) ∧
    ((-Real.pi) < 1e-6) ∧
    (clipArcTo clipStateC4 (-2) 0 (-Real.pi)).2 =
      (if (linearClipPoint clipStateC4 (-2) 0).1 ≠ clipStateC4.tx ∨
          (linearClipPoint clipStateC4 (-2) 0).2 ≠ clipStateC4.ty
       then [PenOp.arc (linearClipPoint clipStateC4 (-2) 0).1
              (linearClipPoint clipStateC4 (-2) 0).2 0]
       else []) ∧
    clipStateC4out.havePoint = true ∧
    (clipStateC4out.isInside = false ∧
      (0 : ℝ) * clipStateC4out.nx + 0 * clipStateC4out.ny >
        clipStateC4out.minprod) ∧
    (clipArcTo clipStateC4out 0 0 (-Real.pi)).2 =
      PenOp.move (linearClipPoint clipStateC4out 0 0).1
          (linearClipPoint clipStateC4out 0 0).2 ::
        (if (0 : ℝ) ≠ (linearClipPoint clipStateC4out 0 0).1 ∨
            (0 : ℝ) ≠ (linearClipPoint clipStateC4out 0 0).2
         then [PenOp.arc 0 0 0] else []) :=
  ⟨rfl, ⟨rfl, by unfold clipStateC4; norm_num⟩,
   by have := Real.pi_pos; linarith,
   ((clipArcTo_crossing_mechanism clipStateC4 (-2) 0 (-Real.pi) rfl).1
       ⟨rfl, by unfold clipStateC4; norm_num⟩).1
     (by have := Real.pi_pos; linarith),
   rfl, ⟨rfl, by unfold clipStateC4out; norm_num⟩,
   ((clipArcTo_crossing_mechanism clipStateC4out 0 0 (-Real.pi) rfl).2
       ⟨rfl, by unfold clipStateC4out; norm_num⟩).1
     (by have := Real.pi_pos; linarith)⟩

/-! ## Recording pen (src/src/gearcutter/RecordingPen.ts)

The recorder state is the list of recorded operations, most recent first
(mirroring push/pop on the parallel `xs`/`ys`/`turns` arrays of the
source).  A `move` entry is a `null` turn; an `arc` entry holds the stored
turn.  Coordinates are `ℚ` — the recorder is pure rational arithmetic —
so everything here evaluates by `decide`. -/

/-- `RecordingPen.moveTo`: pops a trailing bare move, then pushes the new
move. -/
def recMoveTo (st : List (PenOp ℚ)) (x y : ℚ) : List (PenOp ℚ) :=
  match st with
  | PenOp.move _ _ :: rest => PenOp.move x y :: rest
  | _ => PenOp.move x y :: st

/-- `RecordingPen.arcTo`: `none` models the thrown error on an arc without
any preceding operation; arcs of squared length below `1e-14` are dropped,
and below `1e-8` are coerced to `turn = 0`. -/
def recArcTo : List (PenOp ℚ) → ℚ → ℚ → ℚ → Option (List (PenOp ℚ))
  | [], _, _, _ => none
  | op :: rest, x, y, turn =>
      if (x - op.px) * (x - op.px) + (y - op.py) * (y - op.py) <
          1 / 10 ^ 14 then some (op :: rest)
      else if (x - op.px) * (x - op.px) + (y - op.py) * (y - op.py) <
          1 / 10 ^ 8 then some (PenOp.arc x y 0 :: op :: rest)
      else some (PenOp.arc x y turn :: op :: rest)

/-- Feed a sequence of pen operations to a `RecordingPen`. -/
def feedPen (st : List (PenOp ℚ)) : List (PenOp ℚ) → Option (List (PenOp ℚ))
  | [] => some st
  | PenOp.move x y :: rest => feedPen (recMoveTo st x y) rest
  | PenOp.arc x y t :: rest =>
      match recArcTo st x y t with
      | none => none
      | some st2 => feedPen st2 rest

/-- `RecordingPen.path`: replays the recorded operations in chronological
order; with `doMove = false` the leading bare moves are skipped. -/
def emitFwd (st : List (PenOp ℚ)) (doMove : Bool) : List (PenOp ℚ) :=
  if doMove then st.reverse
  else st.reverse.dropWhile fun op => op.isMove

/-- One reversed-replay step: the kind (and negated turn) of operation `a`
re-targeted at the point `p` of its chronological predecessor. -/
def revStep (a : PenOp ℚ) (p : ℚ × ℚ) : PenOp ℚ :=
  match a with
  | PenOp.move _ _ => PenOp.move p.1 p.2
  | PenOp.arc _ _ t => PenOp.arc p.1 p.2 (-t)

/-- The loop body of `RecordingPen.reversedPath`: for each adjacent pair
of the most-recent-first state, the newer operation re-targeted at the
older operation's point. -/
def emitRevBody : List (PenOp ℚ) → List (PenOp ℚ)
  | a :: b :: rest => revStep a b.pt :: emitRevBody (b :: rest)
  | _ => []

/-- `RecordingPen.reversedPath`: an initial move to the most recent point
(when `doMove`), then the reversed-replay body; with `doMove = false` the
emission starts at the most recent arc entry. -/
def emitRev (st : List (PenOp ℚ)) (doMove : Bool) : List (PenOp ℚ) :=
  if doMove then
    match st with
    | [] => []
    | a :: _ => PenOp.move a.pt.1 a.pt.2 :: emitRevBody st
  else emitRevBody (st.dropWhile fun op => op.isMove)

/-- Constraint between a recorded operation and its chronological
predecessor: a bare move is never recorded directly after another bare
move (`moveTo` pops the older one first), and a recorded arc is
non-degenerate relative to its predecessor point, with near-degenerate
turns already coerced to `0` at record time. -/
def pairOK (newer older : PenOp ℚ) : Prop :=
  match newer with
  | PenOp.move _ _ => older.isMove = false
  | PenOp.arc x y t =>
      1 / 10 ^ 14 ≤
        (x - older.px) * (x - older.px) + (y - older.py) * (y - older.py) ∧
      ((x - older.px) * (x - older.px) + (y - older.py) * (y - older.py) <
        1 / 10 ^ 8 → t = 0)

/-- The invariant of reachable recorder states (most recent first): the
oldest entry is a move and each adjacent pair satisfies `pairOK`. -/
def wfRec : List (PenOp ℚ) → Prop
  | [] => True
  | [a] => a.isMove = true
  | a :: b :: rest => pairOK a b ∧ wfRec (b :: rest)

/-- The condition for one operation fed after recorder head `h` (`none`
for an empty recorder) to be recorded verbatim. -/
def goodCond (h : Option (PenOp ℚ)) (a : PenOp ℚ) : Prop :=
  match h with
  | some op => pairOK a op
  | none => a.isMove = true

/-- The condition for a list of fed operations to be recorded verbatim
after recorder head `h`. -/
def good : Option (PenOp ℚ) → List (PenOp ℚ) → Prop
  | _, [] => True
  | h, op :: rest => goodCond h op ∧ good (some op) rest

/-- The last element of `E`, or `h` when `E` is empty. -/
def lastOr (E : List (PenOp ℚ)) (h : Option (PenOp ℚ)) :
    Option (PenOp ℚ) :=
  match E.getLast? with
  | some x => some x
  | none => h

/-- Trailing bare-move normalization: the reversed-then-reversed replay
drops a trailing bare move (its point is immediately overwritten by the
initial move of the reversed emission). -/
def dropTrailingMove : List (PenOp ℚ) → List (PenOp ℚ)
  | PenOp.move _ _ :: b :: rest => b :: rest
  | st => st

theorem revStep_pt (a : PenOp ℚ) (p : ℚ × ℚ) : (revStep a p).pt = p := by
  cases a <;> rfl

theorem revStep_isMove (a : PenOp ℚ) (p : ℚ × ℚ) :
    (revStep a p).isMove = a.isMove := by
  cases a <;> rfl

theorem revStep_revStep_pt (a : PenOp ℚ) (p : ℚ × ℚ) :
    revStep (revStep a p) a.pt = a := by
  cases a <;> simp [revStep, PenOp.pt]

theorem wfRec_tail (a : PenOp ℚ) (rest : List (PenOp ℚ))
    (h : wfRec (a :: rest)) : wfRec rest := by
  cases rest with
  | nil => trivial
  | cons b r => exact h.2

theorem wf_recMoveTo (st : List (PenOp ℚ)) (x y : ℚ) (h : wfRec st) :
    wfRec (recMoveTo st x y) := by
  cases st with
  | nil => exact rfl
  | cons a rest =>
      cases a with
      | move ax ay =>
          show wfRec (PenOp.move x y :: rest)
          cases rest with
          | nil => exact rfl
          | cons b r =>
              exact ⟨h.1, h.2⟩
      | arc ax ay at' =>
          show wfRec (PenOp.move x y :: PenOp.arc ax ay at' :: rest)
          exact ⟨rfl, h⟩

theorem wf_recArcTo (st st2 : List (PenOp ℚ)) (x y t : ℚ) (h : wfRec st)
    (h2 : recArcTo st x y t = some st2) : wfRec st2 := by
  cases st with
  | nil => exact absurd h2 (by simp [recArcTo])
  | cons op rest =>
      simp only [recArcTo] at h2
      by_cases h14 : (x - op.px) * (x - op.px) + (y - op.py) * (y - op.py) <
          1 / 10 ^ 14
      · rw [if_pos h14] at h2
        cases h2
        exact h
      · rw [if_neg h14] at h2
        by_cases h8 : (x - op.px) * (x - op.px) + (y - op.py) * (y - op.py) <
            1 / 10 ^ 8
        · rw [if_pos h8] at h2
          cases h2
          exact ⟨⟨le_of_not_lt h14, fun _ => rfl⟩, h⟩
        · rw [if_neg h8] at h2
          cases h2
          exact ⟨⟨le_of_not_lt h14, fun hc => absurd hc h8⟩, h⟩

theorem wf_feedPen (ops : List (PenOp ℚ)) :
    ∀ (st st2 : List (PenOp ℚ)), wfRec st → feedPen st ops = some st2 →
      wfRec st2 := by
  induction ops with
  | nil =>
      intro st st2 h h2
      cases h2
      exact h
  | cons op rest ih =>
      intro st st2 h h2
      cases op with
      | move x y => exact ih _ _ (wf_recMoveTo st x y h) h2
      | arc x y t =>
          unfold feedPen at h2
          split at h2
          · exact absurd h2 (by simp)
          · rename_i stMid hMid
            exact ih _ _ (wf_recArcTo st stMid x y t h hMid) h2

theorem feed_good (E : List (PenOp ℚ)) :
    ∀ (S : List (PenOp ℚ)), good S.head? E →
      feedPen S E = some (E.reverse ++ S) := by
  induction E with
  | nil =>
      intro S _
      simp [feedPen]
  | cons op rest ih =>
      intro S hg
      cases op with
      | move x y =>
          obtain ⟨hc, hg2⟩ := hg
          have hmv : recMoveTo S x y = PenOp.move x y :: S := by
            cases S with
            | nil => rfl
            | cons s0 srest =>
                cases s0 with
                | move a b => simp [goodCond, pairOK, PenOp.isMove] at hc
                | arc a b c => rfl
          show feedPen (recMoveTo S x y) rest = _
          rw [hmv, ih (PenOp.move x y :: S) hg2]
          simp
      | arc x y t =>
          obtain ⟨hc, hg2⟩ := hg
          cases S with
          | nil => simp [goodCond, PenOp.isMove] at hc
          | cons s0 srest =>
              have hc2 : pairOK (PenOp.arc x y t) s0 := hc
              obtain ⟨h14, h8⟩ := hc2
              have harc : recArcTo (s0 :: srest) x y t =
                  some (PenOp.arc x y t :: s0 :: srest) := by
                simp only [recArcTo]
                rw [if_neg (not_lt.mpr h14)]
                by_cases hcase :
                    (x - s0.px) * (x - s0.px) + (y - s0.py) * (y - s0.py) <
                      1 / 10 ^ 8
                · rw [if_pos hcase, h8 hcase]
                · rw [if_neg hcase]
              show (match recArcTo (s0 :: srest) x y t with
                | none => none
                | some st2 => feedPen st2 rest) = _
              rw [harc]
              show feedPen (PenOp.arc x y t :: s0 :: srest) rest = _
              rw [ih (PenOp.arc x y t :: s0 :: srest) hg2]
              simp

theorem lastOr_append_single (E : List (PenOp ℚ)) (x : PenOp ℚ)
    (h : Option (PenOp ℚ)) : lastOr (E ++ [x]) h = some x := by
  unfold lastOr
  rw [List.getLast?_concat]

theorem good_snoc (E : List (PenOp ℚ)) :
    ∀ (h : Option (PenOp ℚ)) (a : PenOp ℚ),
      good h (E ++ [a]) ↔ (good h E ∧ goodCond (lastOr E h) a) := by
  induction E with
  | nil =>
      intro h a
      show goodCond h a ∧ True ↔ True ∧ goodCond h a
      tauto
  | cons e E2 ih =>
      intro h a
      show goodCond h e ∧ good (some e) (E2 ++ [a]) ↔
        (goodCond h e ∧ good (some e) E2) ∧ goodCond (lastOr (e :: E2) h) a
      rw [ih (some e) a]
      have hlast : lastOr (e :: E2) h = lastOr E2 (some e) := by
        cases E2 with
        | nil => rfl
        | cons f F =>
            show lastOr (e :: f :: F) h = lastOr (f :: F) (some e)
            unfold lastOr
            rw [List.getLast?_cons_cons]
            cases hgl : (f :: F).getLast? with
            | none => simp at hgl
            | some z => rfl
      rw [hlast]
      tauto

theorem good_of_wf (st : List (PenOp ℚ)) (h : wfRec st) :
    good none st.reverse := by
  induction st with
  | nil => trivial
  | cons a rest ih =>
      rw [List.reverse_cons, good_snoc]
      refine ⟨ih (wfRec_tail a rest h), ?_⟩
      cases rest with
      | nil => exact h
      | cons b r =>
          have hlast : lastOr (b :: r).reverse none = some b := by
            unfold lastOr
            rw [List.getLast?_reverse]
            rfl
          rw [hlast]
          exact h.1

theorem feed_emitFwd (st : List (PenOp ℚ)) (h : wfRec st) :
    feedPen [] (emitFwd st true) = some st := by
  unfold emitFwd
  rw [if_pos rfl]
  have hg : good ([] : List (PenOp ℚ)).head? st.reverse := good_of_wf st h
  rw [feed_good st.reverse [] hg]
  simp

theorem px_eq_pt_fst (a : PenOp ℚ) : a.px = a.pt.1 := by
  cases a <;> rfl

theorem py_eq_pt_snd (a : PenOp ℚ) : a.py = a.pt.2 := by
  cases a <;> rfl

theorem good_emitRevBody (rest : List (PenOp ℚ)) :
    ∀ (a h : PenOp ℚ), wfRec (a :: rest) → h.pt = a.pt →
      (a.isMove = true → h.isMove = false) →
      good (some h) (emitRevBody (a :: rest)) := by
  induction rest with
  | nil =>
      intro a h _ _ _
      trivial
  | cons b rest2 ih =>
      intro a h hwf hpt hmv
      show goodCond (some h) (revStep a b.pt) ∧
        good (some (revStep a b.pt)) (emitRevBody (b :: rest2))
      constructor
      · cases a with
        | move ax ay => exact hmv rfl
        | arc ax ay t =>
            obtain ⟨h14, h8⟩ := hwf.1
            have hx : h.px = ax := by
              rw [px_eq_pt_fst, hpt]
              rfl
            have hy : h.py = ay := by
              rw [py_eq_pt_snd, hpt]
              rfl
            have hmag : (b.pt.1 - h.px) * (b.pt.1 - h.px) +
                (b.pt.2 - h.py) * (b.pt.2 - h.py) =
                (ax - b.px) * (ax - b.px) + (ay - b.py) * (ay - b.py) := by
              rw [hx, hy, px_eq_pt_fst b, py_eq_pt_snd b]
              ring
            show 1 / 10 ^ 14 ≤ (b.pt.1 - h.px) * (b.pt.1 - h.px) +
                (b.pt.2 - h.py) * (b.pt.2 - h.py) ∧ _
            rw [hmag]
            refine ⟨h14, fun hlt => ?_⟩
            rw [h8 hlt]
            exact neg_zero
      · apply ih b (revStep a b.pt) hwf.2 (revStep_pt a b.pt)
        intro hbmv
        rw [revStep_isMove]
        cases a with
        | move ax ay =>
            have : b.isMove = false := hwf.1
            rw [hbmv] at this
            exact Bool.noConfusion this
        | arc ax ay t => rfl

theorem emitRev_cons (a : PenOp ℚ) (rest : List (PenOp ℚ)) :
    emitRev (a :: rest) true =
      PenOp.move a.pt.1 a.pt.2 :: emitRevBody (a :: rest) := rfl

theorem good_emitRev (a : PenOp ℚ) (rest : List (PenOp ℚ))
    (hwf : wfRec (a :: rest)) (ha : a.isMove = false) :
    good none (emitRev (a :: rest) true) := by
  rw [emitRev_cons]
  refine ⟨rfl, ?_⟩
  apply good_emitRevBody rest a (PenOp.move a.pt.1 a.pt.2) hwf rfl
  intro hmv
  rw [ha] at hmv
  exact Bool.noConfusion hmv

theorem emitRevBody_append_two (xs : List (PenOp ℚ)) (u v : PenOp ℚ) :
    emitRevBody (xs ++ [u, v]) =
      emitRevBody (xs ++ [u]) ++ [revStep u v.pt] := by
  induction xs with
  | nil => rfl
  | cons x xs2 ih =>
      cases xs2 with
      | nil => rfl
      | cons w ws =>
          show revStep x w.pt :: emitRevBody ((w :: ws) ++ [u, v]) =
            (revStep x w.pt :: emitRevBody ((w :: ws) ++ [u])) ++
              [revStep u v.pt]
          rw [ih]
          rfl

theorem emitRevBody_rev (rest : List (PenOp ℚ)) :
    ∀ (a c : PenOp ℚ), c.pt = a.pt →
      emitRevBody ((emitRevBody (a :: rest)).reverse ++ [c]) =
        (a :: rest).dropLast.reverse := by
  induction rest with
  | nil =>
      intro a c _
      rfl
  | cons b rest2 ih =>
      intro a c hpt
      show emitRevBody
          ((revStep a b.pt :: emitRevBody (b :: rest2)).reverse ++ [c]) = _
      rw [List.reverse_cons, List.append_assoc]
      rw [show ([revStep a b.pt] ++ [c] : List (PenOp ℚ)) =
        [revStep a b.pt, c] from rfl]
      rw [emitRevBody_append_two, ih b (revStep a b.pt) (revStep_pt a b.pt)]
      rw [hpt, revStep_revStep_pt]
      rw [show (a :: b :: rest2).dropLast = a :: (b :: rest2).dropLast
        from rfl]
      rw [List.reverse_cons]

theorem emitRevBody_getLast_pt (rest : List (PenOp ℚ)) :
    ∀ (a d d2 : PenOp ℚ), rest ≠ [] →
      ((emitRevBody (a :: rest)).getLastD d).pt = (rest.getLastD d2).pt := by
  induction rest with
  | nil =>
      intro a d d2 h
      exact absurd rfl h
  | cons b rest2 ih =>
      intro a d d2 _
      cases rest2 with
      | nil => exact revStep_pt a b.pt
      | cons e r =>
          show ((revStep a b.pt ::
            emitRevBody (b :: e :: r)).getLastD d).pt = _
          rw [List.getLastD_cons, List.getLastD_cons]
          exact ih b (revStep a b.pt) b (by simp)

theorem wf_getLast_isMove (st : List (PenOp ℚ)) :
    ∀ (d : PenOp ℚ), wfRec st → st ≠ [] →
      (st.getLastD d).isMove = true := by
  induction st with
  | nil =>
      intro d _ h
      exact absurd rfl h
  | cons a rest ih =>
      intro d hwf _
      cases rest with
      | nil => exact hwf
      | cons b r =>
          rw [List.getLastD_cons]
          exact ih a hwf.2 (by simp)

theorem move_pt_eq (a : PenOp ℚ) (h : a.isMove = true) :
    PenOp.move a.pt.1 a.pt.2 = a := by
  cases a with
  | move x y => rfl
  | arc x y t => exact Bool.noConfusion h

theorem reverse_eq_getLast_cons (L : List (PenOp ℚ)) (d : PenOp ℚ)
    (h : L ≠ []) : L.reverse = L.getLastD d :: L.dropLast.reverse := by
  conv_lhs => rw [← List.dropLast_append_getLast h]
  rw [List.reverse_append, List.reverse_singleton]
  rw [List.getLastD_eq_getLast?, List.getLast?_eq_getLast L h]
  rfl

theorem revRoundTrip_arcHead (a : PenOp ℚ) (rest : List (PenOp ℚ))
    (hwf : wfRec (a :: rest)) (ha : a.isMove = false) :
    feedPen [] (emitRev (a :: rest) true) =
        some ((emitRev (a :: rest) true).reverse) ∧
    emitRev ((emitRev (a :: rest) true).reverse) true =
      (a :: rest).reverse := by
  constructor
  · have hg : good ([] : List (PenOp ℚ)).head?
        (emitRev (a :: rest) true) := good_emitRev a rest hwf ha
    rw [feed_good _ [] hg]
    simp
  · cases rest with
    | nil =>
        have : a.isMove = true := hwf
        rw [ha] at this
        exact Bool.noConfusion this
    | cons b rest2 =>
        rw [emitRev_cons, List.reverse_cons]
        have hbody : emitRevBody
            ((emitRevBody (a :: b :: rest2)).reverse ++
              [PenOp.move a.pt.1 a.pt.2]) =
            (a :: b :: rest2).dropLast.reverse :=
          emitRevBody_rev (b :: rest2) a (PenOp.move a.pt.1 a.pt.2) rfl
        set X := (emitRevBody (a :: b :: rest2)).reverse ++
          [PenOp.move a.pt.1 a.pt.2] with hXdef
        have hXne : X ≠ [] := by simp [hXdef]
        cases hX : X with
        | nil => exact absurd hX hXne
        | cons x0 Xr =>
            rw [emitRev_cons x0 Xr]
            rw [← hX, hbody]
            have hx0pt : x0.pt =
                ((b :: rest2).getLastD a).pt := by
              have h1 : X.head? = some x0 := by rw [hX]; rfl
              have h2 : X.head? =
                  (PenOp.move a.pt.1 a.pt.2 ::
                    emitRevBody (a :: b :: rest2)).getLast? := by
                rw [hXdef]
                rw [show (PenOp.move a.pt.1 a.pt.2 ::
                  emitRevBody (a :: b :: rest2)).getLast? =
                  ((PenOp.move a.pt.1 a.pt.2 ::
                    emitRevBody (a :: b :: rest2)).reverse).head? from
                  (List.head?_reverse _).symm]
                rw [List.reverse_cons]
              have h3 : (PenOp.move a.pt.1 a.pt.2 ::
                  emitRevBody (a :: b :: rest2)).getLast? =
                  some ((PenOp.move a.pt.1 a.pt.2 ::
                    emitRevBody (a :: b :: rest2)).getLastD
                      (PenOp.move 0 0)) := by
                rw [List.getLastD_eq_getLast?,
                  List.getLast?_eq_getLast _ (by simp)]
                rfl
              have h4 : x0 = (PenOp.move a.pt.1 a.pt.2 ::
                  emitRevBody (a :: b :: rest2)).getLastD (PenOp.move 0 0) := by
                have := h1.symm.trans (h2.trans h3)
                exact Option.some.inj this
              rw [h4, List.getLastD_cons]
              exact emitRevBody_getLast_pt (b :: rest2) a _ a (by simp)
            have hlast : (a :: b :: rest2).reverse =
                ((b :: rest2).getLastD a) ::
                  (a :: b :: rest2).dropLast.reverse := by
              rw [reverse_eq_getLast_cons (a :: b :: rest2) (PenOp.move 0 0)
                (by simp), List.getLastD_cons]
            rw [hlast]
            have hmv : ((b :: rest2).getLastD a).isMove = true := by
              have := wf_getLast_isMove (a :: b :: rest2) (PenOp.move 0 0)
                hwf (by simp)
              rw [List.getLastD_cons] at this
              exact this
            have : PenOp.move x0.pt.1 x0.pt.2 = (b :: rest2).getLastD a := by
              rw [hx0pt]
              exact move_pt_eq _ hmv
            rw [this]

/-- Claim C5.  Replaying a `RecordingPen`'s recorded path forward
(`doMove = true`) onto a second recorder reproduces the identical
operation sequence; replaying the reversed path onto a recorder and
reversing that recorder's path again reproduces the original sequence, up
to trailing bare-move normalization. -/
theorem recordingPen_replay_roundtrip (input st : List (PenOp ℚ))
    (h : feedPen [] input = some st) :
    feedPen [] (emitFwd st true) = some st ∧
    ∃ st2, feedPen [] (emitRev st true) = some st2 ∧
      feedPen [] (emitRev st2 true) = some (dropTrailingMove st) := by
  have hwf : wfRec st := wf_feedPen input [] st trivial h
  refine ⟨feed_emitFwd st hwf, ?_⟩
  cases st with
  | nil => exact ⟨[], rfl, rfl⟩
  | cons a rest =>
      cases ha : a.isMove with
      | false =>
          obtain ⟨h1, h2⟩ := revRoundTrip_arcHead a rest hwf ha
          refine ⟨(emitRev (a :: rest) true).reverse, h1, ?_⟩
          rw [h2]
          have h3 : feedPen [] (a :: rest).reverse = some (a :: rest) := by
            have hg := good_of_wf (a :: rest) hwf
            rw [feed_good _ [] hg]
            simp
          rw [h3]
          cases a with
          | move ax ay => exact Bool.noConfusion ha
          | arc ax ay t =>
              cases rest with
              | nil => rfl
              | cons b r => rfl
      | true =>
          cases rest with
          | nil =>
              cases a with
              | arc ax ay t => exact Bool.noConfusion ha
              | move ax ay => exact ⟨[PenOp.move ax ay], rfl, rfl⟩
          | cons b rest2 =>
              have hb : b.isMove = false := by
                cases a with
                | arc ax ay t => exact Bool.noConfusion ha
                | move ax ay => exact hwf.1
              have hwfb : wfRec (b :: rest2) := hwf.2
              obtain ⟨h1, h2⟩ := revRoundTrip_arcHead b rest2 hwfb hb
              refine ⟨(emitRev (b :: rest2) true).reverse, ?_, ?_⟩
              · have hcollapse :
                    feedPen [] (emitRev (a :: b :: rest2) true) =
                      feedPen [] (emitRev (b :: rest2) true) := by
                  cases a with
                  | arc ax ay t => exact Bool.noConfusion ha
                  | move ax ay => rfl
                rw [hcollapse, h1]
              · rw [h2]
                have h3 : feedPen [] (b :: rest2).reverse =
                    some (b :: rest2) := by
                  have hg := good_of_wf (b :: rest2) hwfb
                  rw [feed_good _ [] hg]
                  simp
                rw [h3]
                cases a with
                | arc ax ay t => exact Bool.noConfusion ha
                | move ax ay => rfl

/-- Witness for C5 on a concrete recording: move, two arcs (one of them
near-degenerate, recorded with its turn coerced to `0`), and a trailing
bare move that the reversal round-trip normalizes away. -/
theorem recordingPen_replay_roundtrip_witness :
    feedPen []
        [PenOp.move 0 0, PenOp.arc 1 0 (1/2), PenOp.arc 1 (1/100000) 7,
         PenOp.move 5 5] =
      some [PenOp.move 5 5, PenOp.arc 1 (1/100000) 0, PenOp.arc 1 0 (1/2),
        PenOp.move 0 0] ∧
    (feedPen [] (emitFwd [PenOp.move 5 5, PenOp.arc 1 (1/100000) 0,
        PenOp.arc 1 0 (1/2), PenOp.move 0 0] true) =
      some [PenOp.move 5 5, PenOp.arc 1 (1/100000) 0, PenOp.arc 1 0 (1/2),
        PenOp.move 0 0] ∧
     ∃ st2, feedPen [] (emitRev [PenOp.move 5 5, PenOp.arc 1 (1/100000) 0,
          PenOp.arc 1 0 (1/2), PenOp.move 0 0] true) = some st2 ∧
        feedPen [] (emitRev st2 true) =
          some (dropTrailingMove [PenOp.move 5 5, PenOp.arc 1 (1/100000) 0,
            PenOp.arc 1 0 (1/2), PenOp.move 0 0])) :=
  ⟨by norm_num [feedPen, recMoveTo, recArcTo, PenOp.px, PenOp.py],
   recordingPen_replay_roundtrip
     [PenOp.move 0 0, PenOp.arc 1 0 (1/2), PenOp.arc 1 (1/100000) 7,
      PenOp.move 5 5]
     [PenOp.move 5 5, PenOp.arc 1 (1/100000) 0, PenOp.arc 1 0 (1/2),
      PenOp.move 0 0]
     (by norm_num [feedPen, recMoveTo, recArcTo, PenOp.px, PenOp.py])⟩

/-! ## Min-priority queue (src/src/gearcutter/utils/pq.ts)

A queue element `[priority, ...rest]` is a pair of a rational priority and
an arbitrary payload.  The JS array is a Lean list indexed with `getD`;
the sift loops are structural recursions on an explicit fuel that bounds
the number of loop iterations (the sift-up position strictly decreases,
the sift-down position strictly increases below `q.length`, so a fuel of
`q.length` is never exhausted before the loop condition fails). -/

section PriorityQueue

variable {α : Type} [Inhabited α]

/-- The parent index `(pos - 1) / 2 | 0` of the binary heap. -/
def pqparent (i : ℕ) : ℕ := (i - 1) / 2

/-- The priority `q[i][0]` (the default element's priority when out of
range; never used in range). -/
def pqpri (q : List (ℚ × α)) (i : ℕ) : ℚ := (q.getD i default).1

/-- The three-assignment swap of `q[i]` and `q[j]` used by both sift
loops. -/
def pqswap (q : List (ℚ × α)) (i j : ℕ) : List (ℚ × α) :=
  (q.set i (q.getD j default)).set j (q.getD i default)

/-- The sift-up loop of `pqpush`. -/
def siftUpF : ℕ → List (ℚ × α) → ℕ → List (ℚ × α)
  | 0, q, _ => q
  | fuel + 1, q, pos =>
      if 0 < pos then
        if pqpri q (pqparent pos) ≤ pqpri q pos then q
        else siftUpF fuel (pqswap q (pqparent pos) pos) (pqparent pos)
      else q

/-- `pqpush` from `pq.ts`: append, then sift up from the new slot. -/
def pqpush (q : List (ℚ × α)) (val : ℚ × α) : List (ℚ × α) :=
  siftUpF q.length (q ++ [val]) q.length

/-- The index of the smallest priority among `pos` and its (existing)
children — the `minpos` computed by the sift-down loop of `pqpop`. -/
def pqminpos (q : List (ℚ × α)) (pos : ℕ) : ℕ :=
  if 2 * pos + 2 < q.length ∧
      pqpri q (if pqpri q pos > pqpri q (2 * pos + 1) then 2 * pos + 1
        else pos) > pqpri q (2 * pos + 2) then 2 * pos + 2
  else if pqpri q pos > pqpri q (2 * pos + 1) then 2 * pos + 1
  else pos

/-- The sift-down loop of `pqpop`. -/
def siftDownF : ℕ → List (ℚ × α) → ℕ → List (ℚ × α)
  | 0, q, _ => q
  | fuel + 1, q, pos =>
      if 2 * pos + 1 < q.length then
        if pqminpos q pos = pos then q
        else siftDownF fuel (pqswap q pos (pqminpos q pos)) (pqminpos q pos)
      else q

/-- `pqpop` from `pq.ts`: `undefined` on an empty queue, `shift` on a
one-element queue, otherwise replace the root with the popped last
element and sift down. -/
def pqpop (q : List (ℚ × α)) : Option ((ℚ × α) × List (ℚ × α)) :=
  match q with
  | [] => none
  | [e] => some (e, [])
  | e :: _ :: _ =>
      some (e, siftDownF (q.dropLast.set 0 (q.getLastD default)).length
        (q.dropLast.set 0 (q.getLastD default)) 0)

/-- The min-heap order on priorities: every non-root element is at least
its parent. -/
def heapOrd (q : List (ℚ × α)) : Prop :=
  ∀ i, 0 < i → i < q.length → pqpri q (pqparent i) ≤ pqpri q i

theorem pqpri_getD_irrel (q : List (ℚ × α)) (i : ℕ) (d : ℚ × α)
    (h : i < q.length) : (q.getD i d).1 = pqpri q i := by
  unfold pqpri
  rw [List.getD_eq_getElem?_getD, List.getD_eq_getElem?_getD,
    List.getElem?_eq_getElem h]
  rfl

theorem length_pqswap (q : List (ℚ × α)) (i j : ℕ) :
    (pqswap q i j).length = q.length := by
  simp [pqswap]

theorem pqpri_swap_snd (q : List (ℚ × α)) (i j : ℕ) (hj : j < q.length) :
    pqpri (pqswap q i j) j = pqpri q i := by
  unfold pqpri pqswap
  rw [List.getD_eq_getElem?_getD,
    List.getElem?_set_eq_of_lt _ (by simpa using hj)]
  rfl

theorem pqpri_swap_fst (q : List (ℚ × α)) (i j : ℕ) (hij : i ≠ j)
    (hi : i < q.length) : pqpri (pqswap q i j) i = pqpri q j := by
  unfold pqpri pqswap
  rw [List.getD_eq_getElem?_getD, List.getElem?_set_ne (Ne.symm hij),
    List.getElem?_set_eq_of_lt _ hi]
  rfl

theorem pqpri_swap_other (q : List (ℚ × α)) (i j k : ℕ) (hki : k ≠ i)
    (hkj : k ≠ j) : pqpri (pqswap q i j) k = pqpri q k := by
  unfold pqpri pqswap
  rw [List.getD_eq_getElem?_getD, List.getElem?_set_ne (Ne.symm hkj),
    List.getElem?_set_ne (Ne.symm hki), ← List.getD_eq_getElem?_getD]

theorem pqparent_lt (i : ℕ) (h : 0 < i) : pqparent i < i := by
  unfold pqparent
  omega

theorem pqparent_child_ge (i : ℕ) (h : 0 < i) : 2 * pqparent i + 1 ≤ i := by
  unfold pqparent
  omega

theorem heap_root_min (q : List (ℚ × α)) (h : heapOrd q) :
    ∀ i, i < q.length → pqpri q 0 ≤ pqpri q i := by
  intro i
  induction i using Nat.strong_induction_on with
  | _ i ih =>
      intro hi
      cases Nat.eq_zero_or_pos i with
      | inl h0 => rw [h0]
      | inr hpos =>
          calc pqpri q 0 ≤ pqpri q (pqparent i) :=
                ih (pqparent i) (pqparent_lt i hpos)
                  (lt_trans (pqparent_lt i hpos) hi)
            _ ≤ pqpri q i := h i hpos hi

/-- The sift-up loop invariant: the heap order holds everywhere except
possibly between `pos` and its parent, and the hole's parent-to-be already
dominates the hole's children (via the grandparent condition). -/
def upInv (q : List (ℚ × α)) (pos : ℕ) : Prop :=
  (∀ i, 0 < i → i < q.length → i ≠ pos →
    pqpri q (pqparent i) ≤ pqpri q i) ∧
  (∀ i, 0 < i → i < q.length → pqparent i = pos → 0 < pos →
    pqpri q (pqparent pos) ≤ pqpri q i)

theorem upInv_swap (q : List (ℚ × α)) (pos : ℕ) (hpos : 0 < pos)
    (hlen : pos < q.length) (hinv : upInv q pos)
    (hlt : pqpri q pos < pqpri q (pqparent pos)) :
    upInv (pqswap q (pqparent pos) pos) (pqparent pos) := by
  have hrlt : pqparent pos < pos := pqparent_lt pos hpos
  have hrlen : pqparent pos < q.length := lt_trans hrlt hlen
  have hrne : pqparent pos ≠ pos := Nat.ne_of_lt hrlt
  have hA : pqpri (pqswap q (pqparent pos) pos) pos =
      pqpri q (pqparent pos) := pqpri_swap_snd q (pqparent pos) pos hlen
  have hB : pqpri (pqswap q (pqparent pos) pos) (pqparent pos) =
      pqpri q pos := pqpri_swap_fst q (pqparent pos) pos hrne hrlen
  have hC : ∀ k, k ≠ pqparent pos → k ≠ pos →
      pqpri (pqswap q (pqparent pos) pos) k = pqpri q k := fun k h1 h2 =>
    pqpri_swap_other q (pqparent pos) pos k h1 h2
  constructor
  · intro i hi hilen hir
    rw [length_pqswap] at hilen
    by_cases hip : i = pos
    · subst hip
      rw [hA, hB]
      exact le_of_lt hlt
    · rw [hC i hir hip]
      by_cases hpi_pos : pqparent i = pos
      · rw [hpi_pos, hA]
        exact hinv.2 i hi hilen hpi_pos hpos
      · by_cases hpi_r : pqparent i = pqparent pos
        · rw [hpi_r, hB]
          have h1 : pqpri q (pqparent i) ≤ pqpri q i :=
            hinv.1 i hi hilen hip
          rw [hpi_r] at h1
          exact le_trans (le_of_lt hlt) h1
        · rw [hC (pqparent i) hpi_r hpi_pos]
          exact hinv.1 i hi hilen hip
  · intro i hi hilen hpi hrpos
    rw [length_pqswap] at hilen
    have hgr_lt : pqparent (pqparent pos) < pqparent pos :=
      pqparent_lt _ hrpos
    have hgr_ne_r : pqparent (pqparent pos) ≠ pqparent pos :=
      Nat.ne_of_lt hgr_lt
    have hgr_ne_pos : pqparent (pqparent pos) ≠ pos :=
      Nat.ne_of_lt (lt_trans hgr_lt hrlt)
    rw [hC _ hgr_ne_r hgr_ne_pos]
    have hbase : pqpri q (pqparent (pqparent pos)) ≤
        pqpri q (pqparent pos) := by
      have := hinv.1 (pqparent pos) hrpos hrlen hrne
      exact this
    by_cases hip : i = pos
    · subst hip
      rw [hA]
      exact hbase
    · have hir : i ≠ pqparent pos := by
        have := pqparent_lt i hi
        omega
      rw [hC i hir hip]
      have h1 : pqpri q (pqparent i) ≤ pqpri q i := hinv.1 i hi hilen hip
      rw [hpi] at h1
      exact le_trans hbase h1

theorem siftUpF_heap : ∀ (fuel : ℕ) (q : List (ℚ × α)) (pos : ℕ),
    pos ≤ fuel → pos < q.length → upInv q pos →
    heapOrd (siftUpF fuel q pos) := by
  intro fuel
  induction fuel with
  | zero =>
      intro q pos hf hlen hinv
      have h0 : pos = 0 := Nat.le_zero.mp hf
      subst h0
      intro i hi hilen
      exact hinv.1 i hi hilen (by omega)
  | succ fuel ih =>
      intro q pos hf hlen hinv
      simp only [siftUpF]
      by_cases hpos : 0 < pos
      · rw [if_pos hpos]
        by_cases hcmp : pqpri q (pqparent pos) ≤ pqpri q pos
        · rw [if_pos hcmp]
          intro i hi hilen
          by_cases hip : i = pos
          · subst hip
            exact hcmp
          · exact hinv.1 i hi hilen hip
        · rw [if_neg hcmp]
          apply ih
          · have := pqparent_lt pos hpos
            omega
          · rw [length_pqswap]
            exact lt_trans (pqparent_lt pos hpos) hlen
          · exact upInv_swap q pos hpos hlen hinv (lt_of_not_le hcmp)
      · rw [if_neg hpos]
        intro i hi hilen
        exact hinv.1 i hi hilen (by omega)

theorem pqpri_append_lt (q : List (ℚ × α)) (v : ℚ × α) (j : ℕ)
    (h : j < q.length) : pqpri (q ++ [v]) j = pqpri q j := by
  unfold pqpri
  rw [List.getD_append _ _ _ _ h]

theorem upInv_append (q : List (ℚ × α)) (v : ℚ × α) (hq : heapOrd q) :
    upInv (q ++ [v]) q.length := by
  constructor
  · intro i hi hilen hine
    have hilt : i < q.length := by
      rw [List.length_append, List.length_singleton] at hilen
      omega
    have hplt : pqparent i < q.length := lt_trans (pqparent_lt i hi) hilt
    rw [pqpri_append_lt _ _ _ hplt, pqpri_append_lt _ _ _ hilt]
    exact hq i hi hilt
  · intro i hi hilen hpi _
    exfalso
    have hge := pqparent_child_ge i hi
    rw [hpi] at hge
    rw [List.length_append, List.length_singleton] at hilen
    omega

theorem pqpush_heap (q : List (ℚ × α)) (v : ℚ × α) (hq : heapOrd q) :
    heapOrd (pqpush q v) := by
  unfold pqpush
  exact siftUpF_heap q.length (q ++ [v]) q.length le_rfl
    (by rw [List.length_append, List.length_singleton]; omega)
    (upInv_append q v hq)

theorem pqparent_two_mul_add_one (pos : ℕ) :
    pqparent (2 * pos + 1) = pos := by
  unfold pqparent
  omega

theorem pqparent_two_mul_add_two (pos : ℕ) :
    pqparent (2 * pos + 2) = pos := by
  unfold pqparent
  omega

theorem pqparent_eq_cases (i pos : ℕ) (hi : 0 < i)
    (h : pqparent i = pos) : i = 2 * pos + 1 ∨ i = 2 * pos + 2 := by
  unfold pqparent at h
  omega

/-- The sift-down loop invariant: the heap order holds everywhere except
possibly between `pos` and its children, and `pos`'s parent already
dominates `pos`'s children. -/
def downInv (q : List (ℚ × α)) (pos : ℕ) : Prop :=
  (∀ i, 0 < i → i < q.length → pqparent i ≠ pos →
    pqpri q (pqparent i) ≤ pqpri q i) ∧
  (∀ i, 0 < i → i < q.length → pqparent i = pos → 0 < pos →
    pqpri q (pqparent pos) ≤ pqpri q i)

theorem pqminpos_spec (q : List (ℚ × α)) (pos : ℕ)
    (hne : pqminpos q pos ≠ pos) :
    pqpri q (pqminpos q pos) < pqpri q pos ∧
    pqpri q (pqminpos q pos) ≤ pqpri q (2 * pos + 1) ∧
    (2 * pos + 2 < q.length →
      pqpri q (pqminpos q pos) ≤ pqpri q (2 * pos + 2)) ∧
    pqparent (pqminpos q pos) = pos ∧ pos < pqminpos q pos := by
  unfold pqminpos at hne ⊢
  by_cases h1 : pqpri q pos > pqpri q (2 * pos + 1)
  · rw [if_pos h1] at hne ⊢
    by_cases h2 : 2 * pos + 2 < q.length ∧
        pqpri q (2 * pos + 1) > pqpri q (2 * pos + 2)
    · rw [if_pos h2] at hne ⊢
      exact ⟨lt_trans h2.2 h1, le_of_lt h2.2, fun _ => le_refl _,
        pqparent_two_mul_add_two pos, by omega⟩
    · rw [if_neg h2] at hne ⊢
      refine ⟨h1, le_refl _, fun hr => ?_, pqparent_two_mul_add_one pos,
        by omega⟩
      by_contra hcon
      exact h2 ⟨hr, lt_of_not_le hcon⟩
  · rw [if_neg h1] at hne ⊢
    by_cases h2 : 2 * pos + 2 < q.length ∧
        pqpri q pos > pqpri q (2 * pos + 2)
    · rw [if_pos h2] at hne ⊢
      exact ⟨h2.2, le_trans (le_of_lt h2.2) (le_of_not_lt h1),
        fun _ => le_refl _, pqparent_two_mul_add_two pos, by omega⟩
    · rw [if_neg h2] at hne ⊢
      exact absurd rfl hne

theorem downInv_swap (q : List (ℚ × α)) (pos : ℕ)
    (hlen : pos < q.length) (hmlen : pqminpos q pos < q.length)
    (hne : pqminpos q pos ≠ pos) (hinv : downInv q pos) :
    downInv (pqswap q pos (pqminpos q pos)) (pqminpos q pos) := by
  obtain ⟨ha, hbl, hbr, hparent, hgt⟩ := pqminpos_spec q pos hne
  have hA : pqpri (pqswap q pos (pqminpos q pos)) (pqminpos q pos) =
      pqpri q pos := pqpri_swap_snd q pos (pqminpos q pos) hmlen
  have hB : pqpri (pqswap q pos (pqminpos q pos)) pos =
      pqpri q (pqminpos q pos) :=
    pqpri_swap_fst q pos (pqminpos q pos) (Ne.symm hne) hlen
  have hC : ∀ k, k ≠ pos → k ≠ pqminpos q pos →
      pqpri (pqswap q pos (pqminpos q pos)) k = pqpri q k := fun k h1 h2 =>
    pqpri_swap_other q pos (pqminpos q pos) k h1 h2
  constructor
  · intro i hi hilen hipar
    rw [length_pqswap] at hilen
    by_cases him : i = pqminpos q pos
    · rw [him, hparent, hA, hB]
      exact le_of_lt ha
    · by_cases hip : i = pos
      · have hpos0 : 0 < pos := hip ▸ hi
        rw [hip]
        have hp1 : pqparent pos ≠ pos := Nat.ne_of_lt (pqparent_lt pos hpos0)
        have hp2 : pqparent pos ≠ pqminpos q pos := by
          have := pqparent_lt pos hpos0
          omega
        rw [hC (pqparent pos) hp1 hp2, hB]
        exact hinv.2 (pqminpos q pos) (by omega) hmlen hparent hpos0
      · rw [hC i hip him]
        by_cases hpp : pqparent i = pos
        · rw [hpp, hB]
          rcases pqparent_eq_cases i pos hi hpp with hcase | hcase
          · rw [hcase]
            exact hbl
          · rw [hcase]
            exact hbr (by omega)
        · have hpm : pqparent i ≠ pqminpos q pos := hipar
          rw [hC (pqparent i) hpp hpm]
          exact hinv.1 i hi hilen hpp
  · intro i hi hilen hipar hmpos
    rw [length_pqswap] at hilen
    rw [hparent]
    have him : i ≠ pqminpos q pos := by
      have := pqparent_lt i hi
      omega
    have hip : i ≠ pos := by
      have h1 := pqparent_lt i hi
      omega
    rw [hB, hC i hip him]
    have h1 := hinv.1 i hi hilen (by rw [hipar]; exact hne)
    rw [hipar] at h1
    exact h1

theorem siftDownF_heap : ∀ (fuel : ℕ) (q : List (ℚ × α)) (pos : ℕ),
    q.length ≤ fuel + pos → downInv q pos →
    heapOrd (siftDownF fuel q pos) := by
  intro fuel
  induction fuel with
  | zero =>
      intro q pos hf hinv
      show heapOrd q
      intro i hi hilen
      apply hinv.1 i hi hilen
      intro hpar
      have := pqparent_eq_cases i pos hi hpar
      omega
  | succ fuel ih =>
      intro q pos hf hinv
      simp only [siftDownF]
      by_cases hleft : 2 * pos + 1 < q.length
      · rw [if_pos hleft]
        by_cases hmin : pqminpos q pos = pos
        · rw [if_pos hmin]
          intro i hi hilen
          by_cases hpar : pqparent i = pos
          · -- pos is already no larger than its children
            unfold pqminpos at hmin
            rcases pqparent_eq_cases i pos hi hpar with hcase | hcase
            · subst hcase
              rw [hpar]
              by_cases h1 : pqpri q pos > pqpri q (2 * pos + 1)
              · exfalso
                rw [if_pos h1] at hmin
                by_cases h2 : 2 * pos + 2 < q.length ∧
                    pqpri q (2 * pos + 1) > pqpri q (2 * pos + 2)
                · rw [if_pos h2] at hmin
                  omega
                · rw [if_neg h2] at hmin
                  omega
              · exact le_of_not_lt h1
            · subst hcase
              rw [hpar]
              by_cases h2 : 2 * pos + 2 < q.length ∧
                  pqpri q (if pqpri q pos > pqpri q (2 * pos + 1)
                    then 2 * pos + 1 else pos) > pqpri q (2 * pos + 2)
              · exfalso
                rw [if_pos h2] at hmin
                omega
              · rw [if_neg h2] at hmin
                push_neg at h2
                have h3 := h2 hilen
                by_cases h1 : pqpri q pos > pqpri q (2 * pos + 1)
                · exfalso
                  rw [if_pos h1] at hmin
                  omega
                · rw [if_neg h1] at h3
                  exact h3
          · exact hinv.1 i hi hilen hpar
        · rw [if_neg hmin]
          have hmlen : pqminpos q pos < q.length := by
            obtain ⟨_, _, _, hpar, hgt⟩ := pqminpos_spec q pos hmin
            rcases pqparent_eq_cases (pqminpos q pos) pos (by omega) hpar
              with hcase | hcase
            · omega
            · -- minpos = 2*pos+2: the minpos definition only selects it
              -- when it is in range
              unfold pqminpos at hcase ⊢
              by_cases h2 : 2 * pos + 2 < q.length ∧
                  pqpri q (if pqpri q pos > pqpri q (2 * pos + 1)
                    then 2 * pos + 1 else pos) > pqpri q (2 * pos + 2)
              · rw [if_pos h2]
                exact h2.1
              · rw [if_neg h2] at hcase ⊢
                by_cases h1 : pqpri q pos > pqpri q (2 * pos + 1)
                · rw [if_pos h1] at hcase ⊢
                  omega
                · rw [if_neg h1] at hcase ⊢
                  omega
          apply ih
          · rw [length_pqswap]
            obtain ⟨_, _, _, _, hgt⟩ := pqminpos_spec q pos hmin
            omega
          · exact downInv_swap q pos (by omega) hmlen hmin hinv
      · rw [if_neg hleft]
        intro i hi hilen
        apply hinv.1 i hi hilen
        intro hpar
        have := pqparent_eq_cases i pos hi hpar
        omega

theorem pqpri_pop_setup (q : List (ℚ × α)) (j : ℕ) (hj : j ≠ 0)
    (hjlen : j < q.length - 1) :
    pqpri (q.dropLast.set 0 (q.getLastD default)) j = pqpri q j := by
  unfold pqpri
  rw [List.getD_eq_getElem?_getD, List.getElem?_set_ne (Ne.symm hj),
    ← List.getD_eq_getElem?_getD]
  rw [List.getD_eq_getElem?_getD, List.getD_eq_getElem?_getD]
  rw [List.getElem?_eq_getElem (by simp [List.length_dropLast]; omega),
    List.getElem?_eq_getElem (by omega)]
  simp [List.getElem_dropLast]

theorem downInv_pop_setup (q : List (ℚ × α)) (hq : heapOrd q) :
    downInv (q.dropLast.set 0 (q.getLastD default)) 0 := by
  constructor
  · intro i hi hilen hipar
    have hpar_pos : 0 < pqparent i := Nat.pos_of_ne_zero hipar
    have hilen2 : i < q.length - 1 := by
      simpa [List.length_dropLast] using hilen
    rw [pqpri_pop_setup q i (by omega) hilen2,
      pqpri_pop_setup q (pqparent i) (by omega)
        (by have := pqparent_lt i hi; omega)]
    exact hq i hi (by omega)
  · intro i _ _ _ h
    exact absurd h (by omega)

theorem pqpop_none_iff (q : List (ℚ × α)) : pqpop q = none ↔ q = [] := by
  cases q with
  | nil => simp [pqpop]
  | cons a t =>
      cases t with
      | nil => simp [pqpop]
      | cons b t2 => simp [pqpop]

theorem pqpop_correct (q : List (ℚ × α)) (hq : heapOrd q) (e : ℚ × α)
    (q2 : List (ℚ × α)) (h : pqpop q = some (e, q2)) :
    heapOrd q2 ∧ ∀ i, i < q.length → e.1 ≤ pqpri q i := by
  cases q with
  | nil => exact absurd h (by simp [pqpop])
  | cons a t =>
      cases t with
      | nil =>
          simp only [pqpop, Option.some.injEq, Prod.mk.injEq] at h
          obtain ⟨he, hq2⟩ := h
          subst he
          subst hq2
          constructor
          · intro i hi hilen
            simp at hilen
          · intro i hilen
            simp only [List.length_singleton] at hilen
            have : i = 0 := by omega
            subst this
            exact le_refl _
      | cons b t2 =>
          simp only [pqpop, Option.some.injEq, Prod.mk.injEq] at h
          obtain ⟨he, hq2⟩ := h
          subst hq2
          rw [← he]
          constructor
          · apply siftDownF_heap _ _ 0 (by omega)
            exact downInv_pop_setup (a :: b :: t2) hq
          · intro i hilen
            have h0 : a.1 = pqpri (a :: b :: t2) 0 := rfl
            rw [h0]
            exact heap_root_min (a :: b :: t2) hq i hilen

/-- Claim C9.  For every list `q` satisfying the min-heap order on element
priorities (`q[i][0]`), `pqpush` preserves the heap order; `pqpop`
preserves it on the remaining queue, returns an element whose priority is
minimal among all elements in the queue, and returns `undefined` exactly
when the queue is empty. -/
theorem pq_push_pop_heap {β : Type} [Inhabited β] (q : List (ℚ × β))
    (v : ℚ × β) (hq : heapOrd q) :
    heapOrd (pqpush q v) ∧
    (pqpop q = none ↔ q = []) ∧
    (∀ e q2, pqpop q = some (e, q2) →
      heapOrd q2 ∧ ∀ i, i < q.length → e.1 ≤ pqpri q i) :=
  ⟨pqpush_heap q v hq, pqpop_none_iff q,
   fun e q2 h => pqpop_correct q hq e q2 h⟩

/-- Witness for C9 on the concrete heap `[(1,10), (2,20), (3,30)]` with
pushed element `(0, 40)`. -/
theorem pq_push_pop_heap_witness :
    heapOrd [((1 : ℚ), (10 : ℕ)), (2, 20), (3, 30)] ∧
    (heapOrd (pqpush [((1 : ℚ), (10 : ℕ)), (2, 20), (3, 30)] (0, 40)) ∧
     (pqpop [((1 : ℚ), (10 : ℕ)), (2, 20), (3, 30)] = none ↔
       [((1 : ℚ), (10 : ℕ)), (2, 20), (3, 30)] = []) ∧
     (∀ e q2,
        pqpop [((1 : ℚ), (10 : ℕ)), (2, 20), (3, 30)] = some (e, q2) →
        heapOrd q2 ∧ ∀ i, i < [((1 : ℚ), (10 : ℕ)), (2, 20), (3, 30)].length →
          e.1 ≤ pqpri [((1 : ℚ), (10 : ℕ)), (2, 20), (3, 30)] i)) := by
  have hq : heapOrd [((1 : ℚ), (10 : ℕ)), (2, 20), (3, 30)] := by
    intro i hi hilen
    simp only [List.length_cons, List.length_nil] at hilen
    interval_cases i <;>
      norm_num [pqpri, pqparent, List.getD_cons_zero, List.getD_cons_succ]
  exact ⟨hq, pq_push_pop_heap _ (0, 40) hq⟩

end PriorityQueue

end Cadbook
